import Mathlib

/-!
Verification of the page-level database decryption engine and the memory
key scanner of the mwxdump repository, against its natural-language
specification.

The Rust sources are shallowly embedded: byte buffers are `List Nat`
(each element a byte value), fallible functions return `Except`, and the
external cryptographic crates the code calls into (`pbkdf2`, `hmac`,
`aes`/`cbc`, `blake3`) are abstracted as a record of function parameters
(`CryptoPrims`), exactly at the call boundary the source uses.  Theorems
quantify over those primitives; hypotheses state the properties of the
real primitives they rely on (e.g. that HMAC-SHA512 digests are 64 bytes
long, or that CBC decryption with no padding preserves length).
-/

set_option maxRecDepth 2000

namespace MwxDump

/-- External cryptographic primitives, abstracted at exactly the
boundary where the source calls external crates:
`pbkdf2::pbkdf2_hmac::<Sha512>`, `Hmac::<Sha512>`,
`cbc::Decryptor<aes::Aes256>` with `NoPadding`, and `blake3::hash`. -/
structure CryptoPrims where
  /-- `pbkdf2_hmac::<Sha512>(password, salt, rounds, out)`; the last
  argument is the output length (the size of the `out` buffer). -/
  pbkdf2Sha512 : List Nat → List Nat → Nat → Nat → List Nat
  /-- `Hmac::<Sha512>` of a message under a key; a 64-byte digest. -/
  hmacSha512 : List Nat → List Nat → List Nat
  /-- AES-256-CBC decryption with `NoPadding`: key, iv, data. -/
  aes256CbcDecNoPad : List Nat → List Nat → List Nat → List Nat
  /-- `blake3::hash` of a byte string. -/
  blake3 : List Nat → List Nat

/-- `AES_BLOCK_SIZE` from `decrypt_common.rs`. -/
def AES_BLOCK_SIZE : Nat := 16

/-- `SALT_SIZE` from `decrypt_common.rs`. -/
def SALT_SIZE : Nat := 16

/-- `IV_SIZE` from `decrypt_common.rs`. -/
def IV_SIZE : Nat := 16

/-- `KEY_SIZE` from `decrypt_common.rs`. -/
def KEY_SIZE : Nat := 32

/-- `SQLITE_HEADER = b"SQLite format 3\x00"` from `decrypt_common.rs`,
as its 16 byte values. -/
def sqliteHeader : List Nat :=
  [83, 81, 76, 105, 116, 101, 32, 102, 111, 114, 109, 97, 116, 32, 51, 0]

/-- The sub-list `l[s .. e)`, mirroring a Rust slice `&l[s..e]`. -/
def slice (l : List Nat) (s e : Nat) : List Nat :=
  (l.drop s).take (e - s)

/-- `xor_bytes` from `decrypt_common.rs`: byte-wise XOR with a constant. -/
def xorBytes (data : List Nat) (value : Nat) : List Nat :=
  data.map (fun b => Nat.xor b value)

/-- Little-endian encoding of a `u32` (the source writes
`(page_num + 1) as u32` with `write_u32::<LittleEndian>`; the cast wraps
modulo `2^32`, which the byte extraction below reproduces). -/
def le32 (n : Nat) : List Nat :=
  [n % 256, n / 256 % 256, n / 65536 % 256, n / 16777216 % 256]

/-- `DecryptVersion` from `decrypt/mod.rs`: only V4 is supported. -/
inductive DVersion where
  | V4
  deriving DecidableEq, Repr

/-- `DecryptConfig` from `decrypt/mod.rs`. -/
structure DecryptConfig where
  version : DVersion
  pageSize : Nat
  iterCount : Nat
  hmacSize : Nat
  reserveSize : Nat
  deriving DecidableEq, Repr

/-- `DecryptConfig::v4()`. -/
def cfgV4 : DecryptConfig :=
  { version := .V4, pageSize := 4096, iterCount := 256000,
    hmacSize := 64, reserveSize := 80 }

/-- The distinct `WeChatError::DecryptionFailed(..)` values produced by
the decryption engine; each constructor corresponds to one `format!`
message in the source. -/
inductive DecryptError where
  /-- "密钥长度错误" in `derive_keys_v4`. -/
  | keyLengthInvalid
  /-- "Salt长度错误" in `derive_keys_v4`. -/
  | saltLengthInvalid
  /-- "页面数据太小" in `verify_hmac_sha512`. -/
  | pageTooSmall
  /-- "页面数据范围无效" in `verify_hmac_sha512`. -/
  | pageRangeInvalid
  /-- "页面数据不完整" in `verify_hmac_sha512`. -/
  | pageIncomplete
  /-- "页面 p HMAC验证失败" in `decrypt_page`. -/
  | hmacMismatch (pageNum : Nat)
  /-- "页面 p IV位置超出范围" in `decrypt_page`. -/
  | ivOutOfRange (pageNum : Nat)
  /-- "页面 p 数据偏移超出范围" in `decrypt_page`. -/
  | dataOffsetOutOfRange (pageNum : Nat)
  /-- "页面 p 数据范围无效" in `decrypt_page`. -/
  | dataRangeInvalid (pageNum : Nat)
  /-- "数据库已经解密" in `decrypt_database_sequential` / `prepare_keys`. -/
  | alreadyDecrypted
  /-- "第一页数据不完整" in `decrypt_database_sequential` / `prepare_keys`. -/
  | firstPageIncomplete
  /-- "密钥验证失败": key verification against page 0 failed. -/
  | keyVerificationFailed
  /-- "文件太小，跳过" in `decrypt_file_with_auto_version`. -/
  | fileTooSmall (size : Nat)
  /-- A host I/O failure (file missing or unreadable). -/
  | ioError
  deriving DecidableEq, Repr

/-- `DerivedKeys` from `decrypt_common.rs`. -/
structure DerivedKeys where
  encKey : List Nat
  macKey : List Nat
  deriving DecidableEq, Repr

/-- `derive_keys_v4` from `decrypt_common.rs`: PBKDF2-HMAC-SHA512 with
256000 iterations for the encryption key, then 2 iterations over the
salt XORed with `0x3a` for the MAC key; rejects keys that are not 32
bytes and salts that are not 16 bytes. -/
def deriveKeysV4 (C : CryptoPrims) (key salt : List Nat) :
    Except DecryptError DerivedKeys :=
  if key.length ≠ KEY_SIZE then .error .keyLengthInvalid
  else if salt.length ≠ SALT_SIZE then .error .saltLengthInvalid
  else
    let encKey := C.pbkdf2Sha512 key salt 256000 KEY_SIZE
    let macSalt := xorBytes salt 0x3a
    let macKey := C.pbkdf2Sha512 encKey macSalt 2 KEY_SIZE
    .ok { encKey := encKey, macKey := macKey }

/-- `verify_hmac_sha512` from `decrypt_common.rs`.  The comparison
`&calculated_mac.as_slice()[..config.hmac_size] == stored_mac` is
modelled with `List.take`; for the real `Hmac::<Sha512>` the digest has
exactly 64 bytes, so `take cfg.hmacSize` is the whole digest. -/
def verifyHmacSha512 (C : CryptoPrims) (pageData macKey : List Nat)
    (pageNum : Nat) (cfg : DecryptConfig) : Except DecryptError Bool :=
  let offset := if pageNum = 0 then SALT_SIZE else 0
  let dataEnd := cfg.pageSize - cfg.reserveSize + IV_SIZE
  if pageData.length ≤ offset then .error .pageTooSmall
  else
    let actualEnd := min dataEnd pageData.length
    if actualEnd ≤ offset then .error .pageRangeInvalid
    else
      let macInput := slice pageData offset actualEnd ++ le32 (pageNum + 1)
      let calculated := C.hmacSha512 macKey macInput
      let hmacStart := actualEnd
      let hmacEnd := hmacStart + cfg.hmacSize
      if pageData.length < hmacEnd then .error .pageIncomplete
      else
        let stored := slice pageData hmacStart hmacEnd
        .ok (decide (calculated.take cfg.hmacSize = stored))

/-- `verify_page_hmac` from `decrypt_common.rs`: dispatch on the config
version (only V4 exists). -/
def verifyPageHmac (C : CryptoPrims) (pageData macKey : List Nat)
    (pageNum : Nat) (cfg : DecryptConfig) : Except DecryptError Bool :=
  match cfg.version with
  | .V4 => verifyHmacSha512 C pageData macKey pageNum cfg

/-- `decrypt_page` from `decrypt_common.rs`: verify the page HMAC,
extract the IV from the reserve area, zero-pad the cipher body to a
16-byte boundary if needed, AES-256-CBC-decrypt it with no padding, and
re-attach the reserve bytes verbatim.  (`decrypt_padded_mut::<NoPadding>`
only fails when the length is not a block multiple, which the padding
rules out, so the external call is modelled as total.) -/
def decryptPage (C : CryptoPrims) (pageData encKey macKey : List Nat)
    (pageNum : Nat) (cfg : DecryptConfig) : Except DecryptError (List Nat) :=
  match verifyPageHmac C pageData macKey pageNum cfg with
  | .error e => .error e
  | .ok verified =>
    if verified = false then .error (.hmacMismatch pageNum)
    else
      let ivStart := cfg.pageSize - cfg.reserveSize
      if pageData.length < ivStart + IV_SIZE then .error (.ivOutOfRange pageNum)
      else
        let iv := slice pageData ivStart (ivStart + IV_SIZE)
        let offset := if pageNum = 0 then SALT_SIZE else 0
        if pageData.length ≤ offset then .error (.dataOffsetOutOfRange pageNum)
        else if ivStart ≤ offset then .error (.dataRangeInvalid pageNum)
        else
          let encryptedData := slice pageData offset ivStart
          let remainder := encryptedData.length % AES_BLOCK_SIZE
          let padded :=
            if remainder = 0 then encryptedData
            else encryptedData ++ List.replicate (AES_BLOCK_SIZE - remainder) 0
          let decrypted := C.aes256CbcDecNoPad encKey iv padded
          .ok (decrypted ++ pageData.drop ivStart)

/-- `first_page.starts_with(SQLITE_HEADER)`. -/
def startsWithHeader (l : List Nat) : Bool :=
  decide (l.take 16 = sqliteHeader)

/-- `is_database_encrypted` from `decrypt_common.rs`. -/
def isDatabaseEncrypted (firstPage : List Nat) : Bool :=
  !startsWithHeader firstPage

/-- Fuel-driven worker for `pageChunks`; every step consumes at least
one byte, so `l.length` units of fuel always suffice. -/
def pageChunksGo : Nat → List Nat → List (List Nat)
  | 0, _ => []
  | fuel + 1, l =>
    if l = [] then []
    else l.take 4096 :: pageChunksGo fuel (l.drop 4096)

/-- The sequence of `page_size` reads performed by the per-page loops
(`for page_num in 0..total_pages` with a read of up to 4096 bytes and a
break on a zero-length read): the file split into 4096-byte chunks, the
last possibly shorter. -/
def pageChunks (l : List Nat) : List (List Nat) :=
  pageChunksGo l.length l

theorem pageChunksGo_congr :
    ∀ (fuel₁ fuel₂ : Nat) (l : List Nat), l.length ≤ fuel₁ →
      l.length ≤ fuel₂ → pageChunksGo fuel₁ l = pageChunksGo fuel₂ l := by
  intro fuel₁
  induction fuel₁ with
  | zero =>
    intro fuel₂ l h₁ h₂
    have : l = [] := List.eq_nil_of_length_eq_zero (Nat.le_zero.mp h₁)
    subst this
    cases fuel₂ <;> simp [pageChunksGo]
  | succ f ih =>
    intro fuel₂ l h₁ h₂
    by_cases hl : l = []
    · subst hl
      cases fuel₂ <;> simp [pageChunksGo]
    · have hpos : 0 < l.length := List.length_pos.mpr hl
      cases fuel₂ with
      | zero => omega
      | succ f₂ =>
        simp only [pageChunksGo, if_neg hl]
        have hdrop : (l.drop 4096).length ≤ f := by
          simp only [List.length_drop]; omega
        have hdrop₂ : (l.drop 4096).length ≤ f₂ := by
          simp only [List.length_drop]; omega
        rw [ih f₂ (l.drop 4096) hdrop hdrop₂]

/-- The defining equation of `pageChunks`. -/
theorem pageChunks_eq (l : List Nat) :
    pageChunks l = if l = [] then []
      else l.take 4096 :: pageChunks (l.drop 4096) := by
  by_cases hl : l = []
  · subst hl; simp [pageChunks, pageChunksGo]
  · have hpos : 0 < l.length := List.length_pos.mpr hl
    rw [pageChunks, pageChunks, if_neg hl]
    obtain ⟨m, hm⟩ : ∃ m, l.length = m + 1 := ⟨l.length - 1, by omega⟩
    rw [hm]
    simp only [pageChunksGo, if_neg hl]
    have hdrop : (l.drop 4096).length ≤ m := by
      simp only [List.length_drop]; omega
    rw [pageChunksGo_congr m (l.drop 4096).length _ hdrop le_rfl]

/-- The body of the sequential per-page loop in
`decrypt_database_sequential` (`decrypt_algorithm_v4.rs`): an all-zero
page is passed through; otherwise the page is decrypted, and on a
decryption failure the original bytes are written instead (with a
warning). -/
def processPageSeq (C : CryptoPrims) (dk : DerivedKeys) (pageNum : Nat)
    (pageData : List Nat) : List Nat :=
  if pageData.all (fun b => b = 0) then pageData
  else
    match decryptPage C pageData dk.encKey dk.macKey pageNum cfgV4 with
    | .ok decrypted => decrypted
    | .error _ => pageData

/-- `decrypt_database_sequential` from `decrypt_algorithm_v4.rs`.  The
result is the byte stream written to the output file; an error is
returned before the output file is even created (the source runs
`File::create` only after key verification succeeds). -/
def decryptDatabaseSequential (C : CryptoPrims) (file key : List Nat) :
    Except DecryptError (List Nat) :=
  if isDatabaseEncrypted (file.take 4096) = false then .error .alreadyDecrypted
  else if (file.take 4096).length < SALT_SIZE then .error .firstPageIncomplete
  else
    match deriveKeysV4 C key ((file.take 4096).take SALT_SIZE) with
    | .error e => .error e
    | .ok dk =>
      match verifyPageHmac C (file.take 4096) dk.macKey 0 cfgV4 with
      | .error e => .error e
      | .ok verified =>
        if verified = false then .error .keyVerificationFailed
        else
          .ok (sqliteHeader ++
            ((pageChunks file).enum.map
              (fun p => processPageSeq C dk p.1 p.2)).flatten)

/-- `prepare_keys` from `parallel_decrypt.rs`: the same
already-decrypted check, salt extraction, key derivation and page-0 HMAC
verification the sequential path performs. -/
def prepareKeys (C : CryptoPrims) (firstPage key : List Nat) :
    Except DecryptError DerivedKeys :=
  if isDatabaseEncrypted firstPage = false then .error .alreadyDecrypted
  else if firstPage.length < SALT_SIZE then .error .firstPageIncomplete
  else
    match deriveKeysV4 C key (firstPage.take SALT_SIZE) with
    | .error e => .error e
    | .ok dk =>
      match verifyPageHmac C firstPage dk.macKey 0 cfgV4 with
      | .error e => .error e
      | .ok verified =>
        if verified = false then .error .keyVerificationFailed
        else .ok dk

/-- `process_page_async` from `parallel_decrypt.rs`: an all-zero page is
passed through, a decryption failure falls back to the original bytes
(`page_data_backup`); both are reported as a successful `ProcessedPage`.
(The `Err` arm of the source is reachable only on a `spawn_blocking`
join failure, a host-runtime event outside the pure model.) -/
def processPageParallel (C : CryptoPrims) (dk : DerivedKeys) (pageNum : Nat)
    (pageData : List Nat) : Except DecryptError (List Nat) :=
  if pageData.all (fun b => b = 0) then .ok pageData
  else
    match decryptPage C pageData dk.encKey dk.macKey pageNum cfgV4 with
    | .ok decrypted => .ok decrypted
    | .error _ => .ok pageData

/-- Remove every entry with the given key from an association list
(models `BTreeMap::remove`; keys are unique by construction). -/
def kvErase (k : Nat) (l : List (Nat × Except DecryptError (List Nat))) :
    List (Nat × Except DecryptError (List Nat)) :=
  l.filter (fun p => p.1 ≠ k)

/-- The bytes the ordered writer emits for one `ProcessedPage`: the page
data on success, a 4096-byte zero placeholder on an explicit error. -/
def writePageBytes (r : Except DecryptError (List Nat)) : List Nat :=
  match r with
  | .ok data => data
  | .error _ => List.replicate 4096 0

theorem lookup_mem {α : Type} {l : List (Nat × α)} {k : Nat} {v : α}
    (h : l.lookup k = some v) : (k, v) ∈ l := by
  induction l with
  | nil => simp [List.lookup] at h
  | cons a as ih =>
    rw [List.lookup] at h
    by_cases hk : k = a.1
    · simp [hk] at h
      cases a
      subst hk
      simp_all
    · have : (k == a.1) = false := beq_false_of_ne hk
      rw [this] at h
      exact List.mem_cons_of_mem _ (ih h)

theorem kvErase_length_lt {l : List (Nat × Except DecryptError (List Nat))}
    {k : Nat} {v : Except DecryptError (List Nat)}
    (h : l.lookup k = some v) : (kvErase k l).length < l.length := by
  rw [kvErase, List.length_filter_lt_length_iff_exists]
  exact ⟨(k, v), lookup_mem h, by simp⟩

/-- Fuel-driven worker for `drainPending`.  Every iteration of the
source's `while let Some(page) = pending_pages.remove(&next_expected)`
loop removes one entry from the map, so `pending.length` iterations are
an upper bound and `pending.length + 1` units of fuel always reproduce
the unbounded loop. -/
def drainGo : Nat → List (Nat × Except DecryptError (List Nat)) → Nat →
    List Nat → List (Nat × Except DecryptError (List Nat)) × Nat × List Nat
  | 0, pending, next, out => (pending, next, out)
  | fuel + 1, pending, next, out =>
    match pending.lookup next with
    | some r => drainGo fuel (kvErase next pending) (next + 1)
        (out ++ writePageBytes r)
    | none => (pending, next, out)

/-- The inner `while let Some(page) = pending_pages.remove(&next_expected)`
loop of `spawn_write_task`: write contiguous pages starting at
`next_expected`, returning the new pending map, next expected page and
output. -/
def drainPending (pending : List (Nat × Except DecryptError (List Nat)))
    (next : Nat) (out : List Nat) :
    List (Nat × Except DecryptError (List Nat)) × Nat × List Nat :=
  drainGo (pending.length + 1) pending next out

/-- `spawn_write_task` from `parallel_decrypt.rs`: buffer out-of-order
arrivals in a map keyed by page number and write contiguously from
`next_expected`. -/
def orderedWriter (arrivals : List (Nat × Except DecryptError (List Nat))) :
    List Nat :=
  (arrivals.foldl
    (fun st arrival =>
      let pending := (arrival.1, arrival.2) :: kvErase arrival.1 st.1
      drainPending pending st.2.1 st.2.2)
    ([], 0, [])).2.2

/-- The page with a given number, as the read stage of
`decrypt_database_parallel` produces it (a seek to `page_num * page_size`
followed by a read of up to `page_size` bytes). -/
def pageAt (file : List Nat) (pageNum : Nat) : List Nat :=
  (file.drop (pageNum * 4096)).take 4096

/-- `decrypt_database_parallel` from `parallel_decrypt.rs`.  `arr` is
the order in which processed pages reach the write task (the decrypt
workers complete in an arbitrary interleaving); it ranges over the
permutations of `0 .. total_pages`.  The result is the byte stream
written to the output file. -/
def decryptDatabaseParallel (C : CryptoPrims) (file key : List Nat)
    (arr : List Nat) : Except DecryptError (List Nat) :=
  match prepareKeys C (file.take 4096) key with
  | .error e => .error e
  | .ok dk =>
    .ok (sqliteHeader ++
      orderedWriter (arr.map
        (fun i => (i, processPageParallel C dk i (pageAt file i)))))

/-! ### Memory key scanner (`win_key_extractor_v4.rs`) -/

/-- `V4_KEY_PATTERN`: the fixed 24-byte sentinel. -/
def v4KeyPattern : List Nat :=
  [0, 0, 0, 0, 0, 0, 0, 0,
   0x20, 0, 0, 0, 0, 0, 0, 0,
   0x2F, 0, 0, 0, 0, 0, 0, 0]

/-- Little-endian value of a byte list (`usize::from_le_bytes`). -/
def fromLeBytes (bs : List Nat) : Nat :=
  bs.foldr (fun b acc => b + 256 * acc) 0

/-- The pointers a scanner worker dereferences (reads 32 bytes at, and
on a successful read submits to the validator), for one memory buffer:
the translation of the candidate loop of `worker_impl`.  A window index
`i` with a sentinel match and `i ≥ 8` yields the little-endian pointer
in the 8 bytes before the sentinel, kept iff
`ptr_value > 0x10000 && ptr_value < 0x7FFFFFFFFFFF` — the gate is this
fixed range, with no dependence on the target's bitness.  The source
iterates windows from the back (`.rev()`); mirrored here.  (For a match
at `1 ≤ i ≤ 7` the source's `try_into().unwrap()` panics, dereferencing
nothing, so such indices contribute no pointer.) -/
def candidatePointers (mem : List Nat) : List Nat :=
  ((List.range (mem.length + 1 - 24)).reverse.filter
      (fun i => decide (slice mem i (i + 24) = v4KeyPattern))).filterMap
    (fun i =>
      if 8 ≤ i then
        let ptrValue := fromLeBytes (slice mem (i - 8) i)
        if 0x10000 < ptrValue ∧ ptrValue < 0x7FFFFFFFFFFF then some ptrValue
        else none
      else none)

/-- `is_valid_pointer` from `win_key_extractor_v4.rs` (the arch-aware
helper; note it is never called on the worker scan path). -/
def isValidPointer (ptr : Nat) (is64bit : Bool) : Bool :=
  if is64bit then decide (0x10000 < ptr ∧ ptr < 0x00007FFFFFFFFFFF)
  else decide (0x10000 < ptr ∧ ptr < 0x7FFFFFFF)

/-- State of the first-wins stop protocol of `_extract_key_impl` /
`worker_impl`: the `success_counter`, the `stop_signal` flag, and the
contents of the 1-slot bounded result channel. -/
structure ScanState where
  counter : Nat
  stop : Bool
  result : List (List Nat)
  deriving DecidableEq, Repr

/-- The initial scan state. -/
def initScanState : ScanState := { counter := 0, stop := false, result := [] }

/-- One successful key validation, as serialized by
`success_counter.fetch_add(1, Ordering::SeqCst)`: the worker reads the
old counter value; if it was 0 (this success is the 0 → 1 transition) it
sets the stop flag, `try_send`s its key on the 1-slot channel, drains
its receive channel and returns; otherwise it returns without emitting. -/
def successStep (st : ScanState) (key : List Nat) : ScanState :=
  let old := st.counter
  if old = 0 then
    { counter := old + 1, stop := true,
      result := if st.result.length < 1 then st.result ++ [key] else st.result }
  else { st with counter := old + 1 }

/-- A whole scan, given the keys of the successful validations in the
order their `fetch_add` operations serialize. -/
def runScan (keys : List (List Nat)) : ScanState :=
  keys.foldl successStep initScanState

/-! ### Cached key validator (`cached_key_validator.rs`) -/

/-- A cache key: the pair `(blake3(key), blake3(salt))`. -/
def mkCacheKey (C : CryptoPrims) (key salt : List Nat) : List Nat × List Nat :=
  (C.blake3 key, C.blake3 salt)

/-- The mutable state of a `CachedKeyValidator`: the derived-key cache
and the version cache (hash maps modelled as association lists with
overwrite-on-insert). -/
structure VState where
  cache : List ((List Nat × List Nat) × DerivedKeys)
  versionCache : List ((List Nat × List Nat) × DVersion)
  deriving DecidableEq, Repr

/-- A fresh validator (`CachedKeyValidator::new`). -/
def freshVState : VState := { cache := [], versionCache := [] }

/-- Insert with overwrite into an association list (`HashMap::insert`). -/
def kvInsert {κ ν : Type} [DecidableEq κ] (k : κ) (v : ν)
    (l : List (κ × ν)) : List (κ × ν) :=
  (k, v) :: l.filter (fun p => p.1 ≠ k)

/-- The file system visible to the validator: abstract path names to
file contents. -/
def Disk : Type := Nat → Option (List Nat)

/-- `read_file_salt`: the first 16 bytes of the file (`read_exact`
fails when the file is missing or shorter than 16 bytes). -/
def readFileSalt (disk : Disk) (f : Nat) : Except DecryptError (List Nat) :=
  match disk f with
  | none => .error .ioError
  | some content =>
    if content.length < SALT_SIZE then .error .ioError
    else .ok (content.take SALT_SIZE)

/-- `V4Decryptor::validate_key` from `decrypt_algorithm_v4.rs`: read the
first page, refuse already-decrypted or truncated files with `Ok(false)`,
derive keys (failures give `Ok(false)`), and verify the page-0 HMAC with
`unwrap_or(false)`. -/
def validateKeyV4 (C : CryptoPrims) (disk : Disk) (f : Nat) (key : List Nat) :
    Except DecryptError Bool :=
  match disk f with
  | none => .error .ioError
  | some content =>
    if isDatabaseEncrypted (content.take 4096) = false then .ok false
    else if (content.take 4096).length < SALT_SIZE then .ok false
    else
      match deriveKeysV4 C key ((content.take 4096).take SALT_SIZE) with
      | .error _ => .ok false
      | .ok dk =>
        .ok ((verifyPageHmac C (content.take 4096) dk.macKey 0
          cfgV4).toOption.getD false)

/-- `KeyValidator::validate_key_auto` from `decrypt_validator.rs` (the
fallback validator): try V4 and map its boolean to an optional version. -/
def validateKeyAuto (C : CryptoPrims) (disk : Disk) (f : Nat)
    (key : List Nat) : Except DecryptError (Option DVersion) :=
  match validateKeyV4 C disk f key with
  | .error e => .error e
  | .ok true => .ok (some .V4)
  | .ok false => .ok none

/-- `verify_hmac_with_keys` from `cached_key_validator.rs`: page-0 HMAC
verification of a file under already-derived keys. -/
def verifyHmacWithKeys (C : CryptoPrims) (disk : Disk) (f : Nat)
    (dk : DerivedKeys) : Except DecryptError Bool :=
  match disk f with
  | none => .error .ioError
  | some content => verifyPageHmac C (content.take 4096) dk.macKey 0 cfgV4

/-- `store_in_cache`: on overflow drop half the entries (a coarse LRU
approximation over the map's arbitrary iteration order), then insert. -/
def storeInCache (st : VState) (ck : List Nat × List Nat)
    (dk : DerivedKeys) : VState :=
  let cache :=
    if 1000 ≤ st.cache.length then st.cache.drop (st.cache.length / 2)
    else st.cache
  { st with cache := kvInsert ck dk cache }

/-- `validate_key_cached` from `cached_key_validator.rs`: read the salt
(falling back to the plain validator on failure), consult the version
cache, then the key cache (computing and storing derived keys on a
miss), verify the page-0 HMAC (caching the version on success, falling
back to the plain validator on a verification error).  Returns the
result together with the updated state. -/
def validateKeyCached (C : CryptoPrims) (disk : Disk) (st : VState)
    (f : Nat) (key : List Nat) :
    Except DecryptError (Option DVersion) × VState :=
  match readFileSalt disk f with
  | .error _ => (validateKeyAuto C disk f key, st)
  | .ok salt =>
    let ck := mkCacheKey C key salt
    match st.versionCache.lookup ck with
    | some version => (.ok (some version), st)
    | none =>
      let keysAndState : Except DecryptError (DerivedKeys × VState) :=
        match st.cache.lookup ck with
        | some dk => .ok (dk, st)
        | none =>
          match deriveKeysV4 C key salt with
          | .error e => .error e
          | .ok dk => .ok (dk, storeInCache st ck dk)
      match keysAndState with
      | .error e => (.error e, st)
      | .ok (dk, st₁) =>
        match verifyHmacWithKeys C disk f dk with
        | .ok true =>
          (.ok (some .V4),
           { st₁ with versionCache := kvInsert ck .V4 st₁.versionCache })
        | .ok false => (.ok none, st₁)
        | .error _ => (validateKeyAuto C disk f key, st₁)

/-- `read_salts_parallel`: read every file's salt; any failure fails the
whole batch (`try_join_all`). -/
def readSaltsAll (disk : Disk) : List Nat →
    Except DecryptError (List (Nat × List Nat))
  | [] => .ok []
  | f :: fs =>
    match readFileSalt disk f with
    | .error e => .error e
    | .ok s =>
      match readSaltsAll disk fs with
      | .error e => .error e
      | .ok rest => .ok ((f, s) :: rest)

/-- The parallel derivation of the missing keys inside
`compute_missing_keys_batch`: any derivation failure fails the batch
(`try_join_all`). -/
def deriveMissing (C : CryptoPrims) (key : List Nat) :
    List ((List Nat × List Nat) × List Nat) →
    Except DecryptError (List ((List Nat × List Nat) × DerivedKeys))
  | [] => .ok []
  | p :: ps =>
    match deriveKeysV4 C key p.2 with
    | .error e => .error e
    | .ok dk =>
      match deriveMissing C key ps with
      | .error e => .error e
      | .ok rest => .ok ((p.1, dk) :: rest)

/-- `compute_missing_keys_batch`: look every unique cache key up in the
derived-key cache; derive the missing ones (any derivation failure fails
the batch) and store them.  Returns the combined map and updated state. -/
def computeMissingKeysBatch (C : CryptoPrims) (st : VState)
    (key : List Nat)
    (uniqueKeys : List ((List Nat × List Nat) × List Nat)) :
    Except DecryptError
      (List ((List Nat × List Nat) × DerivedKeys) × VState) :=
  match deriveMissing C key
      (uniqueKeys.filter (fun p => st.cache.lookup p.1 = none)) with
  | .error e => .error e
  | .ok computed =>
    .ok ((uniqueKeys.filterMap
        (fun p => (st.cache.lookup p.1).map (fun dk => (p.1, dk)))) ++
      computed,
      computed.foldl (fun s p => storeInCache s p.1 p.2) st)

/-- `validate_files_batch` from `cached_key_validator.rs`: read all
salts, collect the unique cache keys and the file-to-cache-key map,
batch-compute missing derived keys, then verify each file's page-0 HMAC
(errors and mismatches both record `None`).  Returns the per-file
results and the updated state. -/
def validateFilesBatch (C : CryptoPrims) (disk : Disk) (st : VState)
    (files : List Nat) (key : List Nat) :
    Except DecryptError (List (Nat × Option DVersion) × VState) :=
  match readSaltsAll disk files with
  | .error e => .error e
  | .ok salts =>
    let uniqueKeys := salts.foldl
      (fun acc p => kvInsert (mkCacheKey C key p.2) p.2 acc) []
    let fileToCk := salts.foldl
      (fun acc p => kvInsert p.1 (mkCacheKey C key p.2) acc) []
    match computeMissingKeysBatch C st key uniqueKeys with
    | .error e => .error e
    | .ok (derivedKeys, st₁) =>
      let results := fileToCk.map (fun p =>
        match derivedKeys.lookup p.2 with
        | some dk =>
          match verifyHmacWithKeys C disk p.1 dk with
          | .ok true => (p.1, some DVersion.V4)
          | .ok false => (p.1, (none : Option DVersion))
          | .error _ => (p.1, (none : Option DVersion))
        | none => (p.1, (none : Option DVersion)))
      .ok (results, st₁)

/-! ### Batch directory driver (`decrypt_files.rs`) -/

/-- `decrypt_file_with_auto_version` from `decrypt_files.rs`: reject
files smaller than 1024 bytes before anything else, then auto-detect the
version via the plain key validator and decrypt (the decryptor built by
`create_decryptor` runs the sequential path).  An error is returned
before any output file is created. -/
def decryptFileWithAutoVersion (C : CryptoPrims) (disk : Disk) (f : Nat)
    (key : List Nat) : Except DecryptError (List Nat) :=
  match disk f with
  | none => .error .ioError
  | some content =>
    if content.length < 1024 then .error (.fileTooSmall content.length)
    else
      match validateKeyAuto C disk f key with
      | .error e => .error e
      | .ok none => .error .keyVerificationFailed
      | .ok (some _) => decryptDatabaseSequential C content key

/-- The per-file accounting of `handle_directory_decrypt`: every
collected file is processed (a failure increments `failed_count` and the
run continues), yielding the final `(success_count, failed_count)`. -/
def handleDirectoryDecrypt (C : CryptoPrims) (disk : Disk)
    (files : List Nat) (key : List Nat) : Nat × Nat :=
  files.foldl
    (fun acc f =>
      match decryptFileWithAutoVersion C disk f key with
      | .ok _ => (acc.1 + 1, acc.2)
      | .error _ => (acc.1, acc.2 + 1))
    (0, 0)

/-- Concrete stand-in primitives used to instantiate witnesses: the
structure of the engine does not depend on the primitives' values. -/
def trivPrims : CryptoPrims :=
  { pbkdf2Sha512 := fun _ _ _ _ => List.replicate 32 0,
    hmacSha512 := fun _ _ => List.replicate 64 1,
    aes256CbcDecNoPad := fun _ _ d => d,
    blake3 := fun x => x }

deriving instance DecidableEq for Except

/-- The salt a file would yield, as a total function (meaningful exactly
when `readFileSalt` succeeds). -/
def saltD (disk : Disk) (f : Nat) : List Nat :=
  match readFileSalt disk f with
  | .ok s => s
  | .error _ => []

/-- The per-file verdict computed by the batch validator from the
derived-key map. -/
def batchVerdict (C : CryptoPrims) (disk : Disk)
    (derivedKeys : List ((List Nat × List Nat) × DerivedKeys))
    (f : Nat) (ck : List Nat × List Nat) : Option DVersion :=
  match derivedKeys.lookup ck with
  | some dk =>
    match verifyHmacWithKeys C disk f dk with
    | .ok true => some DVersion.V4
    | .ok false => none
    | .error _ => none
  | none => none

/-- An encrypted page whose stored HMAC equals the stand-in digest
`replicate 64 1`: accepted by the pipeline under `trivPrims`. -/
def pageGood : List Nat :=
  List.replicate 16 2 ++ List.replicate 4000 0 ++ List.replicate 16 0 ++
    List.replicate 64 1

/-- A page whose stored HMAC (last byte 2) differs from the stand-in
digest `replicate 64 1`. -/
def pageBad : List Nat :=
  List.replicate 16 2 ++ List.replicate 4000 0 ++ List.replicate 16 0 ++
    (List.replicate 63 1 ++ [2])

/-- Two files sharing the salt `replicate 16 2`: file 0 is a full page
with a matching stored HMAC, file 1 is a 16-byte stub (its page-0 HMAC
verification cannot succeed). -/
def disk9 : Disk := fun n =>
  match n with
  | 0 => some pageGood
  | 1 => some (List.replicate 16 2)
  | _ => none

/-- The validator state after file 0 of `disk9` has been validated under
the stand-in primitives: derived keys cached, and the version cache
holding `V4` for the shared cache key. -/
def st9 : VState :=
  { cache := [((List.replicate 32 0, List.replicate 16 2),
      { encKey := List.replicate 32 0, macKey := List.replicate 32 0 })],
    versionCache := [((List.replicate 32 0, List.replicate 16 2),
      DVersion.V4)] }

/-- A one-file disk whose single file is 16 bytes long (salt only): its
page-0 HMAC verification fails with an error rather than a mismatch. -/
def disk16 : Disk := fun n =>
  match n with
  | 0 => some (List.replicate 16 5)
  | _ => none

/-! ### Helper lemmas -/

theorem slice_length (l : List Nat) (s e : Nat) :
    (slice l s e).length = min (e - s) (l.length - s) := by
  simp [slice]

theorem verifyHmacSha512_eval (C : CryptoPrims) (page macKey : List Nat)
    (p : Nat)
    (hLen : (C.hmacSha512 macKey
      (slice page (if p = 0 then 16 else 0) 4032 ++ le32 (p + 1))).length = 64)
    (hp : page.length = 4096) :
    verifyPageHmac C page macKey p cfgV4 =
      .ok (decide (C.hmacSha512 macKey
            (slice page (if p = 0 then 16 else 0) 4032 ++ le32 (p + 1)) =
          slice page 4032 4096)) := by
  by_cases hp0 : p = 0
  · subst hp0
    have htake : List.take 64 (C.hmacSha512 macKey
        (slice page 16 4032 ++ le32 1)) =
        C.hmacSha512 macKey (slice page 16 4032 ++ le32 1) :=
      List.take_of_length_le (le_of_eq (by simpa using hLen))
    simp only [verifyPageHmac, verifyHmacSha512, cfgV4, SALT_SIZE, IV_SIZE, hp]
    norm_num
    rw [htake]
  · have htake : List.take 64 (C.hmacSha512 macKey
        (slice page 0 4032 ++ le32 (p + 1))) =
        C.hmacSha512 macKey (slice page 0 4032 ++ le32 (p + 1)) :=
      List.take_of_length_le (le_of_eq (by simpa [if_neg hp0] using hLen))
    simp only [verifyPageHmac, verifyHmacSha512, cfgV4, SALT_SIZE, IV_SIZE, hp,
      if_neg hp0]
    norm_num
    rw [htake]

theorem verify_ok_length (C : CryptoPrims) (page macKey : List Nat)
    (p : Nat) (b : Bool)
    (h : verifyPageHmac C page macKey p cfgV4 = .ok b) :
    4096 ≤ page.length := by
  simp only [verifyPageHmac, verifyHmacSha512, cfgV4, SALT_SIZE, IV_SIZE] at h
  split_ifs at h <;> first
  | exact Except.noConfusion h
  | omega

theorem decryptPage_eval (C : CryptoPrims) (page encKey macKey : List Nat)
    (p : Nat) (hp : page.length = 4096)
    (hv : verifyPageHmac C page macKey p cfgV4 = .ok true) :
    decryptPage C page encKey macKey p cfgV4 =
      .ok (C.aes256CbcDecNoPad encKey (slice page 4016 4032)
            (slice page (if p = 0 then 16 else 0) 4016) ++
          slice page 4016 4096) := by
  have hdrop : page.drop 4016 = slice page 4016 4096 := by
    have : (page.drop 4016).length = 80 := by simp [hp]
    rw [slice, (by norm_num : 4096 - 4016 = 80),
      List.take_of_length_le (le_of_eq this)]
  have hbody : (slice page (if p = 0 then 16 else 0) 4016).length % 16 = 0 := by
    rw [slice_length, hp]
    by_cases hp0 : p = 0 <;> simp [hp0]
  simp only [decryptPage, hv]
  by_cases hp0 : p = 0
  · subst hp0
    norm_num at hbody ⊢
    simp only [cfgV4, SALT_SIZE, IV_SIZE, AES_BLOCK_SIZE, hp]
    norm_num
    rw [if_pos hbody, hdrop]
  · simp only [if_neg hp0] at hbody ⊢
    simp only [cfgV4, SALT_SIZE, IV_SIZE, AES_BLOCK_SIZE, hp, if_neg hp0]
    norm_num
    rw [if_pos hbody, hdrop]

/-! ### Slices of a page given as salt/body/iv/hmac segments -/

theorem length_page {A B C D : List Nat} (hA : A.length = 16)
    (hB : B.length = 4000) (hC : C.length = 16) (hD : D.length = 64) :
    (A ++ B ++ C ++ D).length = 4096 := by
  simp [hA, hB, hC, hD]

theorem take16_page {A B C D : List Nat} (hA : A.length = 16) :
    (A ++ B ++ C ++ D).take 16 = A := by
  simp only [List.append_assoc]
  exact List.take_left' hA

theorem drop16_page {A B C D : List Nat} (hA : A.length = 16) :
    (A ++ B ++ C ++ D).drop 16 = B ++ C ++ D := by
  simp only [List.append_assoc]
  exact List.drop_left' hA

theorem slice_page_hmac {A B C D : List Nat} (hA : A.length = 16)
    (hB : B.length = 4000) (hC : C.length = 16) (hD : D.length = 64) :
    slice (A ++ B ++ C ++ D) 4032 4096 = D := by
  simp only [List.append_assoc]
  rw [slice, show (4096 : Nat) - 4032 = 64 by norm_num,
    show (4032 : Nat) = A.length + 4016 by omega, List.drop_append,
    show (4016 : Nat) = B.length + 16 by omega, List.drop_append,
    show (16 : Nat) = C.length + 0 by omega, List.drop_append, List.drop_zero]
  exact List.take_of_length_le (le_of_eq hD)

theorem slice_page_iv {A B C D : List Nat} (hA : A.length = 16)
    (hB : B.length = 4000) (hC : C.length = 16) :
    slice (A ++ B ++ C ++ D) 4016 4032 = C := by
  simp only [List.append_assoc]
  rw [slice, show (4032 : Nat) - 4016 = 16 by norm_num,
    show (4016 : Nat) = A.length + 4000 by omega, List.drop_append,
    show (4000 : Nat) = B.length + 0 by omega, List.drop_append, List.drop_zero,
    ← hC, List.take_left]

theorem slice_page_tail {A B C D : List Nat} (hA : A.length = 16)
    (hB : B.length = 4000) (hC : C.length = 16) (hD : D.length = 64) :
    slice (A ++ B ++ C ++ D) 4016 4096 = C ++ D := by
  simp only [List.append_assoc]
  rw [slice, show (4096 : Nat) - 4016 = 80 by norm_num,
    show (4016 : Nat) = A.length + 4000 by omega, List.drop_append,
    show (4000 : Nat) = B.length + 0 by omega, List.drop_append, List.drop_zero]
  exact List.take_of_length_le (by simp only [List.length_append, hC, hD]; omega)

theorem slice_page_body1 {A B C D : List Nat} (hA : A.length = 16)
    (hB : B.length = 4000) :
    slice (A ++ B ++ C ++ D) 16 4016 = B := by
  simp only [List.append_assoc]
  rw [slice, List.drop_left' hA]
  have : (4016 : Nat) - 16 = B.length := by omega
  rw [this, List.take_left]

theorem slice_page_mac1 {A B C D : List Nat} (hA : A.length = 16)
    (hB : B.length = 4000) (hC : C.length = 16) :
    slice (A ++ B ++ C ++ D) 16 4032 = B ++ C := by
  simp only [List.append_assoc]
  rw [slice, List.drop_left' hA, show (4032 : Nat) - 16 = 4016 by omega,
    List.take_append_eq_append_take,
    List.take_of_length_le (by omega : B.length ≤ 4016), hB,
    List.take_append_eq_append_take,
    List.take_of_length_le (by omega : C.length ≤ 4016 - 4000), hC]
  norm_num

/-! ### Claims C1 - C3 -/

/-- C1: V4 key derivation returns
`enc_key = PBKDF2-HMAC-SHA512(master_secret, salt, 256000, 32)` and
`mac_key = PBKDF2-HMAC-SHA512(enc_key, salt XOR 0x3A, 2, 32)` for every
32-byte key and 16-byte salt, and an error when the key is not exactly
32 bytes or the salt not exactly 16 bytes. -/
theorem claim_C1_derive_keys_v4 (C : CryptoPrims) (key salt : List Nat) :
    (key.length = 32 → salt.length = 16 →
      deriveKeysV4 C key salt =
        .ok { encKey := C.pbkdf2Sha512 key salt 256000 32,
              macKey := C.pbkdf2Sha512 (C.pbkdf2Sha512 key salt 256000 32)
                (xorBytes salt 0x3a) 2 32 }) ∧
    ((key.length ≠ 32 ∨ salt.length ≠ 16) →
      ∃ e, deriveKeysV4 C key salt = .error e) := by
  constructor
  · intro hk hs
    simp [deriveKeysV4, KEY_SIZE, SALT_SIZE, hk, hs]
  · intro h
    by_cases hk : key.length = 32
    · have hs : salt.length ≠ 16 := by tauto
      exact ⟨.saltLengthInvalid,
        by simp [deriveKeysV4, KEY_SIZE, SALT_SIZE, hk, hs]⟩
    · exact ⟨.keyLengthInvalid, by simp [deriveKeysV4, KEY_SIZE, hk]⟩

/-- C1 witness: the derivation applied to an all-zero 32-byte key and
16-byte salt. -/
theorem claim_C1_witness :
    deriveKeysV4 trivPrims (List.replicate 32 0) (List.replicate 16 0) =
      .ok { encKey := trivPrims.pbkdf2Sha512 (List.replicate 32 0)
              (List.replicate 16 0) 256000 32,
            macKey := trivPrims.pbkdf2Sha512
              (trivPrims.pbkdf2Sha512 (List.replicate 32 0)
                (List.replicate 16 0) 256000 32)
              (xorBytes (List.replicate 16 0) 0x3a) 2 32 } :=
  (claim_C1_derive_keys_v4 trivPrims (List.replicate 32 0)
    (List.replicate 16 0)).1 (by simp only [List.length_replicate])
    (by simp only [List.length_replicate])

/-- C2: for a full 4096-byte page with 0-based number `p`, HMAC
verification computes HMAC-SHA512 over
`page[offset .. 4032] ++ LE32(p + 1)` with `offset = 16` iff `p = 0`,
and returns true iff the full 64-byte digest equals the stored HMAC at
`page[4032 .. 4096]` (the digest is not truncated: by `hLen` it has
exactly 64 bytes and `take 64` keeps all of it). -/
theorem claim_C2_verify_hmac (C : CryptoPrims)
    (hLen : ∀ k m, (C.hmacSha512 k m).length = 64)
    (page macKey : List Nat) (p : Nat) (hp : page.length = 4096) :
    verifyPageHmac C page macKey p cfgV4 =
      .ok (decide (C.hmacSha512 macKey
            (slice page (if p = 0 then 16 else 0) 4032 ++ le32 (p + 1)) =
          slice page 4032 4096)) :=
  verifyHmacSha512_eval C page macKey p (hLen _ _) hp

/-- C2 witness: verification of a concrete full page, number 1. -/
theorem claim_C2_witness :
    verifyPageHmac trivPrims
      (List.replicate 16 2 ++ List.replicate 4000 0 ++
        List.replicate 16 0 ++ List.replicate 64 1)
      (List.replicate 32 0) 1 cfgV4 =
      .ok (decide (trivPrims.hmacSha512 (List.replicate 32 0)
            (slice (List.replicate 16 2 ++ List.replicate 4000 0 ++
              List.replicate 16 0 ++ List.replicate 64 1)
              (if 1 = 0 then 16 else 0) 4032 ++ le32 2) =
          slice (List.replicate 16 2 ++ List.replicate 4000 0 ++
            List.replicate 16 0 ++ List.replicate 64 1) 4032 4096)) :=
  claim_C2_verify_hmac trivPrims
    (fun _ _ => by simp only [trivPrims, List.length_replicate]) _ _ 1
    (length_page (by simp only [List.length_replicate])
      (by simp only [List.length_replicate])
      (by simp only [List.length_replicate])
      (by simp only [List.length_replicate]))

/-- C3: for a full 4096-byte page whose HMAC verifies, decryption
returns the AES-256-CBC decryption (no padding) of
`page[offset .. 4016]` with `offset = 16` iff `p = 0`, under IV
`page[4016 .. 4032]`, concatenated with the last 80 bytes
`page[4016 .. 4096]` preserved verbatim.  (The zero-padding branch is
inert here: the cipher body has 4000 or 4016 bytes, a multiple of 16,
as the proof of `decryptPage_eval` establishes.) -/
theorem claim_C3_decrypt_page (C : CryptoPrims)
    (page encKey macKey : List Nat) (p : Nat) (hp : page.length = 4096)
    (hv : verifyPageHmac C page macKey p cfgV4 = .ok true) :
    decryptPage C page encKey macKey p cfgV4 =
      .ok (C.aes256CbcDecNoPad encKey (slice page 4016 4032)
            (slice page (if p = 0 then 16 else 0) 4016) ++
          slice page 4016 4096) :=
  decryptPage_eval C page encKey macKey p hp hv

/-- C3 witness: decryption of a concrete full page, number 1, whose
stored HMAC bytes match the (stand-in) digest. -/
theorem claim_C3_witness :
    decryptPage trivPrims
      (List.replicate 16 2 ++ List.replicate 4000 0 ++
        List.replicate 16 0 ++ List.replicate 64 1)
      (List.replicate 32 0) (List.replicate 32 0) 1 cfgV4 =
      .ok (trivPrims.aes256CbcDecNoPad (List.replicate 32 0)
            (slice (List.replicate 16 2 ++ List.replicate 4000 0 ++
              List.replicate 16 0 ++ List.replicate 64 1) 4016 4032)
            (slice (List.replicate 16 2 ++ List.replicate 4000 0 ++
              List.replicate 16 0 ++ List.replicate 64 1)
              (if 1 = 0 then 16 else 0) 4016) ++
          slice (List.replicate 16 2 ++ List.replicate 4000 0 ++
            List.replicate 16 0 ++ List.replicate 64 1) 4016 4096) :=
  claim_C3_decrypt_page trivPrims _ _ _ 1
    (length_page (by simp only [List.length_replicate])
      (by simp only [List.length_replicate])
      (by simp only [List.length_replicate])
      (by simp only [List.length_replicate]))
    (by
      rw [verifyHmacSha512_eval trivPrims _ _ 1
        (by simp only [trivPrims, List.length_replicate])
        (length_page (by simp only [List.length_replicate])
          (by simp only [List.length_replicate])
          (by simp only [List.length_replicate])
          (by simp only [List.length_replicate]))]
      rw [slice_page_hmac (by simp only [List.length_replicate])
        (by simp only [List.length_replicate])
        (by simp only [List.length_replicate])
        (by simp only [List.length_replicate])]
      simp only [trivPrims, Except.ok.injEq, decide_eq_true_eq])

/-! ### Claims C7, C8: memory key scanner -/

theorem runScan_from_nonzero :
    ∀ (ks : List (List Nat)) (st : ScanState), st.counter ≠ 0 →
      ks.foldl successStep st = { st with counter := st.counter + ks.length } := by
  intro ks
  induction ks with
  | nil => intro st h; simp
  | cons a as ih =>
    intro st h
    have hstep : successStep st a = { st with counter := st.counter + 1 } := by
      simp [successStep, h]
    rw [List.foldl_cons, hstep, ih _ (by simp)]
    simp only [List.length_cons]
    congr 1
    omega

/-- C7: with at least one successful validation, the first-wins protocol
delivers exactly the first success's key on the 1-slot result channel,
the stop flag ends set, and every later success only increments the
counter without emitting.  `k :: ks` are the successful validations in
the serialization order of the `SeqCst` `fetch_add` on the success
counter. -/
theorem claim_C7_first_wins (k : List Nat) (ks : List (List Nat)) :
    (runScan (k :: ks)).result = [k] ∧ (runScan (k :: ks)).stop = true ∧
    (runScan (k :: ks)).counter = ks.length + 1 := by
  have h1 : successStep initScanState k =
      { counter := 1, stop := true, result := [k] } := by
    simp [successStep, initScanState]
  rw [runScan, List.foldl_cons, h1,
    runScan_from_nonzero ks _ (by simp)]
  refine ⟨rfl, rfl, by simp [Nat.add_comm]⟩

/-- C8 (amended): every pointer a worker dereferences lies in the fixed
range `(0x10000, 0x7FFF_FFFF_FFFF)`, with no dependence on the target
process's bitness; the 32-bit-specific bound of `is_valid_pointer` is
not applied on the scan path. -/
theorem claim_C8_pointer_gate (mem : List Nat) (p : Nat)
    (h : p ∈ candidatePointers mem) :
    0x10000 < p ∧ p < 0x7FFFFFFFFFFF := by
  simp only [candidatePointers, List.mem_filterMap] at h
  obtain ⟨i, hi, hf⟩ := h
  by_cases h8 : 8 ≤ i
  · simp only [if_pos h8] at hf
    by_cases hr : 0x10000 < fromLeBytes (slice mem (i - 8) i) ∧
        fromLeBytes (slice mem (i - 8) i) < 0x7FFFFFFFFFFF
    · simp only [if_pos hr, Option.some.injEq] at hf
      omega
    · simp only [if_neg hr] at hf
      exact Option.noConfusion hf
  · simp only [if_neg h8] at hf
    exact Option.noConfusion hf

/-- A scanned buffer holding a sentinel hit whose preceding pointer is
`0x20000`, inside the user-space range. -/
def memGood : List Nat := [0, 0, 2, 0, 0, 0, 0, 0] ++ v4KeyPattern

/-- C8 witness: the in-range pointer `0x20000` is dereferenced and the
gate bounds hold for it. -/
theorem claim_C8_witness :
    (0x20000 ∈ candidatePointers memGood) ∧
      (0x10000 < 0x20000 ∧ (0x20000 : Nat) < 0x7FFFFFFFFFFF) :=
  ⟨by decide, claim_C8_pointer_gate memGood 0x20000 (by decide)⟩

/-- A scanned buffer holding a sentinel hit whose preceding pointer is
`0x80000000`: outside the 32-bit user-space range `(0x10000, 0x7FFF_FFFF)`. -/
def mem32 : List Nat := [0, 0, 0, 128, 0, 0, 0, 0] ++ v4KeyPattern

/-- C8 counterexample: the worker dereferences the pointer `0x80000000`
even though it is invalid for a 32-bit target (`is_valid_pointer`
rejects it); the claimed arch-specific gate `(0x10000, 0x7FFF_FFFF)` for
32-bit targets is not enforced, because `worker_impl` hardcodes the
64-bit bound and never consults the target's bitness. -/
theorem claim_C8_counterexample :
    (0x80000000 ∈ candidatePointers mem32) ∧
      isValidPointer 0x80000000 false = false := by
  decide

/-! ### Claim C10: small files in a directory batch -/

theorem handleDirectoryDecrypt_counts (C : CryptoPrims) (disk : Disk)
    (files : List Nat) (key : List Nat) :
    handleDirectoryDecrypt C disk files key =
      (files.countP (fun g => (decryptFileWithAutoVersion C disk g key).isOk),
       files.countP
         (fun g => !(decryptFileWithAutoVersion C disk g key).isOk)) := by
  suffices h : ∀ acc : Nat × Nat, files.foldl
      (fun acc f =>
        match decryptFileWithAutoVersion C disk f key with
        | .ok _ => (acc.1 + 1, acc.2)
        | .error _ => (acc.1, acc.2 + 1)) acc =
      (acc.1 + files.countP
        (fun g => (decryptFileWithAutoVersion C disk g key).isOk),
       acc.2 + files.countP
        (fun g => !(decryptFileWithAutoVersion C disk g key).isOk)) by
    rw [handleDirectoryDecrypt, h (0, 0)]
    simp
  induction files with
  | nil => intro acc; simp
  | cons f fs ih =>
    intro acc
    rw [List.foldl_cons]
    cases hres : decryptFileWithAutoVersion C disk f key with
    | ok v =>
      rw [ih]
      simp [List.countP_cons, hres, Except.isOk, Except.toBool]
      omega
    | error e =>
      rw [ih]
      simp [List.countP_cons, hres, Except.isOk, Except.toBool]
      omega

/-- C10: in a directory batch run, a collected file smaller than 1024
bytes is rejected with the "file too small" error before any output is
produced, the failed count records it (the final counts tally every
file, so processing continues past it), and the failed count is at
least one. -/
theorem claim_C10_small_files (C : CryptoPrims) (disk : Disk)
    (files : List Nat) (key : List Nat) (f : Nat) (content : List Nat)
    (hmem : f ∈ files) (hc : disk f = some content)
    (hs : content.length < 1024) :
    decryptFileWithAutoVersion C disk f key =
        .error (.fileTooSmall content.length) ∧
    handleDirectoryDecrypt C disk files key =
      (files.countP (fun g => (decryptFileWithAutoVersion C disk g key).isOk),
       files.countP
         (fun g => !(decryptFileWithAutoVersion C disk g key).isOk)) ∧
    1 ≤ (handleDirectoryDecrypt C disk files key).2 := by
  have h1 : decryptFileWithAutoVersion C disk f key =
      .error (.fileTooSmall content.length) := by
    simp [decryptFileWithAutoVersion, hc, hs]
  refine ⟨h1, handleDirectoryDecrypt_counts C disk files key, ?_⟩
  rw [handleDirectoryDecrypt_counts C disk files key]
  have : 0 < files.countP
      (fun g => !(decryptFileWithAutoVersion C disk g key).isOk) := by
    rw [List.countP_pos_iff]
    exact ⟨f, hmem, by simp [h1, Except.isOk, Except.toBool]⟩
  simpa using this

/-- C10 witness: one 20-byte file in the batch. -/
theorem claim_C10_witness :
    decryptFileWithAutoVersion trivPrims
        (fun n => if n = 0 then some (List.replicate 20 7) else none) 0
        (List.replicate 32 0) =
      .error (.fileTooSmall (List.replicate 20 7).length) ∧
    handleDirectoryDecrypt trivPrims
        (fun n => if n = 0 then some (List.replicate 20 7) else none) [0]
        (List.replicate 32 0) =
      ([0].countP (fun g => (decryptFileWithAutoVersion trivPrims
          (fun n => if n = 0 then some (List.replicate 20 7) else none) g
          (List.replicate 32 0)).isOk),
       [0].countP (fun g => !(decryptFileWithAutoVersion trivPrims
          (fun n => if n = 0 then some (List.replicate 20 7) else none) g
          (List.replicate 32 0)).isOk)) ∧
    1 ≤ (handleDirectoryDecrypt trivPrims
        (fun n => if n = 0 then some (List.replicate 20 7) else none) [0]
        (List.replicate 32 0)).2 :=
  claim_C10_small_files trivPrims _ [0] (List.replicate 32 0) 0
    (List.replicate 20 7) (by simp) rfl
    (by simp only [List.length_replicate]; omega)

/-! ### Claim C5: key mismatch aborts before any output -/

/-- C5: when page-0 HMAC verification under the derived keys returns
false, both the sequential and the parallel per-file pipeline abort with
the key-verification error; in both sources this happens before the
output file is created, so no payload byte is ever written (the models
produce output only in the `ok` case). -/
theorem claim_C5_key_mismatch (C : CryptoPrims) (file key arr : List Nat)
    (dk : DerivedKeys)
    (henc : isDatabaseEncrypted (file.take 4096) = true)
    (hlen : ¬ (file.take 4096).length < 16)
    (hd : deriveKeysV4 C key ((file.take 4096).take 16) = .ok dk)
    (hv : verifyPageHmac C (file.take 4096) dk.macKey 0 cfgV4 = .ok false) :
    decryptDatabaseSequential C file key = .error .keyVerificationFailed ∧
    decryptDatabaseParallel C file key arr =
      .error .keyVerificationFailed := by
  have hlen' : ¬ file.length < 16 := by
    simp only [List.length_take] at hlen
    omega
  constructor
  · simp [decryptDatabaseSequential, SALT_SIZE, henc, hlen, hlen', hd, hv]
  · simp [decryptDatabaseParallel, prepareKeys, SALT_SIZE, henc, hlen, hlen',
      hd, hv]

theorem pageBad_length : pageBad.length = 4096 := by
  rw [pageBad]
  exact length_page (by simp only [List.length_replicate])
    (by simp only [List.length_replicate])
    (by simp only [List.length_replicate]) (by decide)

theorem pageBad_take : pageBad.take 4096 = pageBad :=
  List.take_of_length_le (le_of_eq pageBad_length)

/-- C5 witness: rejecting a concrete one-page file under the stand-in
primitives. -/
theorem claim_C5_witness :
    decryptDatabaseSequential trivPrims pageBad (List.replicate 32 0) =
        .error .keyVerificationFailed ∧
    decryptDatabaseParallel trivPrims pageBad (List.replicate 32 0) [0] =
      .error .keyVerificationFailed :=
  claim_C5_key_mismatch trivPrims pageBad (List.replicate 32 0) [0]
    { encKey := List.replicate 32 0, macKey := List.replicate 32 0 }
    (by
      rw [pageBad_take, isDatabaseEncrypted, startsWithHeader, pageBad,
        take16_page (by simp only [List.length_replicate])]
      decide)
    (by
      rw [pageBad_take, pageBad_length]
      omega)
    (by
      rw [pageBad_take, show pageBad.take 16 = List.replicate 16 2 from by
        rw [pageBad, take16_page (by simp only [List.length_replicate])]]
      simp [deriveKeysV4, KEY_SIZE, SALT_SIZE, trivPrims])
    (by
      rw [pageBad_take]
      rw [verifyHmacSha512_eval trivPrims _ _ 0
        (by simp only [trivPrims, List.length_replicate]) pageBad_length]
      rw [show slice pageBad 4032 4096 = List.replicate 63 1 ++ [2] from by
        rw [pageBad]
        exact slice_page_hmac (by simp only [List.length_replicate])
          (by simp only [List.length_replicate])
          (by simp only [List.length_replicate]) (by decide)]
      simp only [trivPrims]
      decide)


/-! ### Claim C4: whole-file sequential output -/

theorem pageChunks_flatten : ∀ l : List Nat, (pageChunks l).flatten = l := by
  intro l
  by_cases h : l = []
  · rw [pageChunks_eq, if_pos h, h]
    rfl
  · rw [pageChunks_eq, if_neg h, List.flatten_cons,
      pageChunks_flatten (l.drop 4096), List.take_append_drop]
termination_by l => l.length
decreasing_by
  simp only [List.length_drop]
  exact Nat.sub_lt (List.length_pos.mpr h) (by decide)

theorem pageChunks_le : ∀ (l c : List Nat), c ∈ pageChunks l →
    c.length ≤ 4096 := by
  intro l c hc
  by_cases h : l = []
  · rw [pageChunks_eq, if_pos h] at hc
    simp at hc
  · rw [pageChunks_eq, if_neg h] at hc
    rcases List.mem_cons.mp hc with h1 | h1
    · subst h1; simp
    · exact pageChunks_le (l.drop 4096) c h1
termination_by l => l.length
decreasing_by
  simp only [List.length_drop]
  exact Nat.sub_lt (List.length_pos.mpr h) (by decide)

theorem decryptPage_ok_verify (C : CryptoPrims)
    (page encKey macKey : List Nat) (p : Nat) (cfg : DecryptConfig)
    (d : List Nat) (h : decryptPage C page encKey macKey p cfg = .ok d) :
    verifyPageHmac C page macKey p cfg = .ok true := by
  rw [decryptPage] at h
  cases hv : verifyPageHmac C page macKey p cfg with
  | error e => rw [hv] at h; exact Except.noConfusion h
  | ok b =>
    rw [hv] at h
    cases b with
    | false => simp at h
    | true => rfl

theorem processPageSeq_length (C : CryptoPrims) (dk : DerivedKeys)
    (p : Nat) (c : List Nat)
    (hCbc : ∀ k iv d, (C.aes256CbcDecNoPad k iv d).length = d.length)
    (hp : p ≠ 0) (hc : c.length ≤ 4096) :
    (processPageSeq C dk p c).length = c.length := by
  rw [processPageSeq]
  split
  · rfl
  · cases hres : decryptPage C c dk.encKey dk.macKey p cfgV4 with
    | ok d =>
      have hv := decryptPage_ok_verify C c dk.encKey dk.macKey p cfgV4 d hres
      have h4096 : c.length = 4096 :=
        le_antisymm hc (verify_ok_length C c dk.macKey p true hv)
      rw [decryptPage_eval C c dk.encKey dk.macKey p h4096 hv] at hres
      injection hres with hd
      rw [← hd]
      simp only [List.length_append, hCbc, slice_length, h4096, if_neg hp]
      omega
    | error e => rfl

theorem processPageSeq_page0 (C : CryptoPrims) (dk : DerivedKeys)
    (c : List Nat)
    (hLen : ∀ k m, (C.hmacSha512 k m).length = 64)
    (hHm : ∀ k m, C.hmacSha512 k m ≠ List.replicate 64 0)
    (hCbc : ∀ k iv d, (C.aes256CbcDecNoPad k iv d).length = d.length)
    (hc4096 : c.length = 4096)
    (hv : verifyPageHmac C c dk.macKey 0 cfgV4 = .ok true) :
    (processPageSeq C dk 0 c).length = 4080 := by
  have hnz : c.all (fun b => b = 0) = false := by
    rw [Bool.eq_false_iff]
    intro hall
    have hall' : ∀ x ∈ c, x = 0 := by
      intro x hx
      have := List.all_eq_true.mp hall x hx
      simpa using this
    have hstored : slice c 4032 4096 = List.replicate 64 0 := by
      rw [List.eq_replicate_iff]
      constructor
      · rw [slice_length]; omega
      · intro b hb
        exact hall' b (List.mem_of_mem_drop (List.mem_of_mem_take hb))
    rw [verifyHmacSha512_eval C c dk.macKey 0 (hLen _ _) hc4096,
      hstored] at hv
    simp only [Except.ok.injEq, decide_eq_true_eq] at hv
    exact hHm _ _ hv
  rw [processPageSeq, if_neg (by simp [hnz])]
  rw [decryptPage_eval C c dk.encKey dk.macKey 0 hc4096 hv]
  simp only [List.length_append, hCbc, slice_length, hc4096]
  norm_num

theorem seq_tail_length (C : CryptoPrims) (dk : DerivedKeys)
    (hCbc : ∀ k iv d, (C.aes256CbcDecNoPad k iv d).length = d.length) :
    ∀ (cs : List (List Nat)) (s : Nat), 1 ≤ s →
      (∀ c ∈ cs, c.length ≤ 4096) →
      ((cs.enumFrom s).map
        (fun p => processPageSeq C dk p.1 p.2)).flatten.length =
      cs.flatten.length := by
  intro cs
  induction cs with
  | nil => intro s hs hb; simp
  | cons c cs ih =>
    intro s hs hb
    simp only [List.enumFrom_cons, List.map_cons, List.flatten_cons,
      List.length_append]
    rw [ih (s + 1) (by omega) (fun x hx => hb x (List.mem_cons_of_mem _ hx)),
      processPageSeq_length C dk s c hCbc (by omega)
        (hb c (List.mem_cons_self _ _))]

/-- C4: whenever the sequential pipeline accepts a file (which requires
page 0's HMAC to verify under the derived keys), the output starts with
the literal 16-byte SQLite header, which replaces page 0's leading
16-byte salt, and the output has exactly the input's length.
Hypotheses: HMAC-SHA512 digests have 64 bytes, no digest is the all-zero
64-byte string (no such input is known for HMAC-SHA512; an accepted
all-zero page 0 would be passed through and lengthen the output), and
CBC decryption with no padding preserves length. -/
theorem claim_C4_output_shape (C : CryptoPrims)
    (hLen : ∀ k m, (C.hmacSha512 k m).length = 64)
    (hHm : ∀ k m, C.hmacSha512 k m ≠ List.replicate 64 0)
    (hCbc : ∀ k iv d, (C.aes256CbcDecNoPad k iv d).length = d.length)
    (file key out : List Nat)
    (h : decryptDatabaseSequential C file key = .ok out) :
    out.take 16 = sqliteHeader ∧ out.length = file.length := by
  rw [decryptDatabaseSequential] at h
  by_cases henc : isDatabaseEncrypted (file.take 4096) = false
  case pos => rw [if_pos henc] at h; exact Except.noConfusion h
  rw [if_neg henc] at h
  by_cases hsz : (file.take 4096).length < SALT_SIZE
  case pos => rw [if_pos hsz] at h; exact Except.noConfusion h
  rw [if_neg hsz] at h
  split at h
  next => exact Except.noConfusion h
  next dk hdk =>
    split at h
    next => exact Except.noConfusion h
    next b hv =>
      split at h
      next => exact Except.noConfusion h
      next hb =>
        have hb' : b = true := by
          cases b
          · exact absurd rfl hb
          · rfl
        subst hb'
        injection h with h
        have hfl : 4096 ≤ file.length := by
          have := verify_ok_length C (file.take 4096) dk.macKey 0 true hv
          simp only [List.length_take] at this
          omega
        have hfp : (file.take 4096).length = 4096 := by
          simp only [List.length_take]
          omega
        constructor
        · rw [← h]
          exact List.take_left' (by decide)
        · have hchunks : pageChunks file =
              file.take 4096 :: pageChunks (file.drop 4096) := by
            rw [pageChunks_eq, if_neg ?_]
            intro hnil
            rw [hnil] at hfl
            simp at hfl
          rw [← h, List.length_append, hchunks, List.enum_cons,
            List.map_cons, List.flatten_cons, List.length_append]
          rw [seq_tail_length C dk hCbc (pageChunks (file.drop 4096)) 1
            le_rfl (fun c hc => pageChunks_le (file.drop 4096) c hc)]
          rw [processPageSeq_page0 C dk (file.take 4096) hLen hHm hCbc
            hfp hv]
          rw [pageChunks_flatten (file.drop 4096)]
          simp only [List.length_drop]
          have hhead : sqliteHeader.length = 16 := by decide
          omega

theorem pageGood_length : pageGood.length = 4096 := by
  rw [pageGood]
  exact length_page (by simp only [List.length_replicate])
    (by simp only [List.length_replicate])
    (by simp only [List.length_replicate])
    (by simp only [List.length_replicate])

theorem pageGood_take : pageGood.take 4096 = pageGood :=
  List.take_of_length_le (le_of_eq pageGood_length)

theorem pageGood_verify :
    verifyPageHmac trivPrims pageGood (List.replicate 32 0) 0 cfgV4 =
      .ok true := by
  rw [verifyHmacSha512_eval trivPrims _ _ 0
    (by simp only [trivPrims, List.length_replicate]) pageGood_length]
  rw [show slice pageGood 4032 4096 = List.replicate 64 1 from by
    rw [pageGood]
    exact slice_page_hmac (by simp only [List.length_replicate])
      (by simp only [List.length_replicate])
      (by simp only [List.length_replicate])
      (by simp only [List.length_replicate])]
  simp only [trivPrims, Except.ok.injEq, decide_eq_true_eq]

theorem pageGood_sequential_ok :
    decryptDatabaseSequential trivPrims pageGood (List.replicate 32 0) =
      .ok (sqliteHeader ++ ((pageChunks pageGood).enum.map
        (fun p => processPageSeq trivPrims
          { encKey := List.replicate 32 0, macKey := List.replicate 32 0 }
          p.1 p.2)).flatten) := by
  rw [decryptDatabaseSequential, if_neg ?henc, if_neg ?hsz]
  case henc =>
    rw [pageGood_take, isDatabaseEncrypted, startsWithHeader, pageGood,
      take16_page (by simp only [List.length_replicate])]
    decide
  case hsz =>
    rw [pageGood_take, pageGood_length]
    simp only [SALT_SIZE]
    omega
  rw [show (pageGood.take 4096).take SALT_SIZE = List.replicate 16 2 from by
    rw [pageGood_take, pageGood, SALT_SIZE,
      take16_page (by simp only [List.length_replicate])]]
  rw [show deriveKeysV4 trivPrims (List.replicate 32 0)
      (List.replicate 16 2) =
      .ok { encKey := List.replicate 32 0,
            macKey := List.replicate 32 0 } from by
    simp [deriveKeysV4, KEY_SIZE, SALT_SIZE, trivPrims]]
  dsimp only
  rw [pageGood_take, pageGood_verify]
  rfl

/-- C4 witness: the concrete one-page file `pageGood` is accepted, and
its output starts with the SQLite header and has the input's length. -/
theorem claim_C4_witness :
    (sqliteHeader ++ ((pageChunks pageGood).enum.map
      (fun p => processPageSeq trivPrims
        { encKey := List.replicate 32 0, macKey := List.replicate 32 0 }
        p.1 p.2)).flatten).take 16 = sqliteHeader ∧
    (sqliteHeader ++ ((pageChunks pageGood).enum.map
      (fun p => processPageSeq trivPrims
        { encKey := List.replicate 32 0, macKey := List.replicate 32 0 }
        p.1 p.2)).flatten).length = pageGood.length :=
  claim_C4_output_shape trivPrims
    (fun _ _ => by simp only [trivPrims, List.length_replicate])
    (fun k m => by simp only [trivPrims]; decide)
    (fun _ _ _ => by simp only [trivPrims])
    pageGood (List.replicate 32 0) _ pageGood_sequential_ok


/-! ### Claim C6: ordered writer and parallel / sequential agreement -/

theorem lookup_kvErase (k k' : Nat)
    (l : List (Nat × Except DecryptError (List Nat))) :
    (kvErase k' l).lookup k = if k = k' then none else l.lookup k := by
  induction l with
  | nil => by_cases hk : k = k' <;> simp [kvErase, hk]
  | cons a as ih =>
    obtain ⟨ak, av⟩ := a
    by_cases ha : ak = k'
    · subst ha
      have hrm : kvErase ak ((ak, av) :: as) = kvErase ak as := by
        simp [kvErase, List.filter_cons]
      rw [hrm, ih]
      by_cases hk : k = ak
      · simp [hk]
      · rw [if_neg hk, if_neg hk, List.lookup_cons]
        rw [beq_false_of_ne hk]
    · have hkeep : kvErase k' ((ak, av) :: as) = (ak, av) :: kvErase k' as := by
        simp [kvErase, List.filter_cons, ha]
      rw [hkeep]
      by_cases hk : k = ak
      · subst hk
        have hkne : k ≠ k' := ha
        simp [List.lookup_cons_self, hkne]
      · rw [List.lookup_cons, beq_false_of_ne hk, ih, List.lookup_cons,
          beq_false_of_ne hk]

theorem drainGo_spec (g : Nat → Except DecryptError (List Nat))
    (S : List Nat) :
    ∀ (fuel : Nat) (pending : List (Nat × Except DecryptError (List Nat)))
      (next : Nat) (out : List Nat),
      pending.length < fuel →
      (∀ k, k < next → k ∈ S) →
      (∀ k, pending.lookup k =
        if k ∈ S ∧ next ≤ k then some (g k) else none) →
      (pending.map Prod.fst).Nodup →
      out = ((List.range next).map (fun i => writePageBytes (g i))).flatten →
      (∀ k, k < (drainGo fuel pending next out).2.1 → k ∈ S) ∧
      (drainGo fuel pending next out).2.1 ∉ S ∧
      (∀ k, (drainGo fuel pending next out).1.lookup k =
        if k ∈ S ∧ (drainGo fuel pending next out).2.1 ≤ k then some (g k)
        else none) ∧
      ((drainGo fuel pending next out).1.map Prod.fst).Nodup ∧
      (drainGo fuel pending next out).2.2 =
        ((List.range (drainGo fuel pending next out).2.1).map
          (fun i => writePageBytes (g i))).flatten := by
  intro fuel
  induction fuel with
  | zero =>
    intro pending next out hf
    exact absurd hf (Nat.not_lt_zero _)
  | succ f ih =>
    intro pending next out hf hnext hlook hnd hout
    cases hl : pending.lookup next with
    | none =>
      have hns : next ∉ S := by
        have hx := hlook next
        rw [hl] at hx
        by_contra hmem
        simp [hmem] at hx
      simp only [drainGo, hl]
      exact ⟨hnext, hns, hlook, hnd, hout⟩
    | some r =>
      have hcond : next ∈ S ∧ r = g next := by
        have hx := hlook next
        rw [hl] at hx
        by_cases hmem : next ∈ S
        · simp [hmem] at hx
          exact ⟨hmem, hx⟩
        · simp [hmem] at hx
      obtain ⟨hmemS, hr⟩ := hcond
      simp only [drainGo, hl]
      have hplen : (kvErase next pending).length < f := by
        have h1 := kvErase_length_lt (l := pending) (k := next) (v := r) hl
        omega
      refine ih (kvErase next pending) (next + 1)
        (out ++ writePageBytes r) hplen ?_ ?_ ?_ ?_
      · intro k hk
        rcases Nat.lt_or_ge k next with h | h
        · exact hnext k h
        · have hkeq : k = next := by omega
          exact hkeq ▸ hmemS
      · intro k
        rw [lookup_kvErase]
        by_cases hk : k = next
        · subst hk
          have hlt : ¬ (k + 1 ≤ k) := by omega
          simp [hlt]
        · rw [if_neg hk, hlook k]
          by_cases hkS : k ∈ S
          · have hiff : (next ≤ k) ↔ (next + 1 ≤ k) := by omega
            simp [hkS, hiff]
          · simp [hkS]
      · exact hnd.sublist ((List.filter_sublist pending).map Prod.fst)
      · rw [hout, hr, List.range_succ, List.map_append, List.flatten_append]
        simp

theorem writer_fold_spec (g : Nat → Except DecryptError (List Nat))
    (n : Nat) :
    ∀ (arr : List Nat) (S : List Nat)
      (st : List (Nat × Except DecryptError (List Nat)) × Nat × List Nat),
      (∀ k ∈ S, k < n) → (∀ p ∈ arr, p < n) → (∀ p ∈ arr, p ∉ S) →
      arr.Nodup →
      (∀ k, k < st.2.1 → k ∈ S) → st.2.1 ∉ S →
      (∀ k, st.1.lookup k =
        if k ∈ S ∧ st.2.1 ≤ k then some (g k) else none) →
      (st.1.map Prod.fst).Nodup →
      st.2.2 = ((List.range st.2.1).map
        (fun i => writePageBytes (g i))).flatten →
      (∀ k, k < ((arr.map (fun i => (i, g i))).foldl
          (fun st arrival =>
            let pending := (arrival.1, arrival.2) :: kvErase arrival.1 st.1
            drainPending pending st.2.1 st.2.2) st).2.1 →
        (k ∈ arr ∨ k ∈ S)) ∧
      (¬ (((arr.map (fun i => (i, g i))).foldl
          (fun st arrival =>
            let pending := (arrival.1, arrival.2) :: kvErase arrival.1 st.1
            drainPending pending st.2.1 st.2.2) st).2.1 ∈ arr ∨
        ((arr.map (fun i => (i, g i))).foldl
          (fun st arrival =>
            let pending := (arrival.1, arrival.2) :: kvErase arrival.1 st.1
            drainPending pending st.2.1 st.2.2) st).2.1 ∈ S)) ∧
      (∀ k, ((arr.map (fun i => (i, g i))).foldl
          (fun st arrival =>
            let pending := (arrival.1, arrival.2) :: kvErase arrival.1 st.1
            drainPending pending st.2.1 st.2.2) st).1.lookup k =
        if (k ∈ arr ∨ k ∈ S) ∧ ((arr.map (fun i => (i, g i))).foldl
          (fun st arrival =>
            let pending := (arrival.1, arrival.2) :: kvErase arrival.1 st.1
            drainPending pending st.2.1 st.2.2) st).2.1 ≤ k
        then some (g k) else none) ∧
      ((((arr.map (fun i => (i, g i))).foldl
          (fun st arrival =>
            let pending := (arrival.1, arrival.2) :: kvErase arrival.1 st.1
            drainPending pending st.2.1 st.2.2) st).1.map Prod.fst).Nodup) ∧
      ((arr.map (fun i => (i, g i))).foldl
          (fun st arrival =>
            let pending := (arrival.1, arrival.2) :: kvErase arrival.1 st.1
            drainPending pending st.2.1 st.2.2) st).2.2 =
        ((List.range ((arr.map (fun i => (i, g i))).foldl
          (fun st arrival =>
            let pending := (arrival.1, arrival.2) :: kvErase arrival.1 st.1
            drainPending pending st.2.1 st.2.2) st).2.1).map
          (fun i => writePageBytes (g i))).flatten := by
  intro arr
  induction arr with
  | nil =>
    intro S st hS harr hdisj hnd hnext hnotin hlook hpnd hout
    simp only [List.map_nil, List.foldl_nil]
    refine ⟨fun k hk => Or.inr (hnext k hk), ?_, ?_, hpnd, hout⟩
    · simp only [List.not_mem_nil, false_or]
      exact hnotin
    · intro k
      simp only [List.not_mem_nil, false_or]
      exact hlook k
  | cons p ps ih =>
    intro S st hS harr hdisj hnd hnext hnotin hlook hpnd hout
    rw [List.map_cons, List.foldl_cons]
    have hstart :
        (let pending :=
          ((p, g p).1, (p, g p).2) :: kvErase (p, g p).1 st.1;
        drainPending pending st.2.1 st.2.2) =
        drainGo (((p, g p) :: kvErase p st.1).length + 1)
          ((p, g p) :: kvErase p st.1) st.2.1 st.2.2 := rfl
    rw [hstart]
    have hpn : p < n := harr p (List.mem_cons_self _ _)
    have hpS : p ∉ S := hdisj p (List.mem_cons_self _ _)
    have hpnext : st.2.1 ≤ p := by
      by_contra hcon
      push_neg at hcon
      exact hpS (hnext p hcon)
    have hlook₀ : ∀ k, ((p, g p) :: kvErase p st.1).lookup k =
        if k ∈ p :: S ∧ st.2.1 ≤ k then some (g k) else none := by
      intro k
      by_cases hk : k = p
      · subst hk
        simp [List.lookup_cons_self, hpnext]
      · rw [List.lookup_cons, beq_false_of_ne hk, lookup_kvErase,
          if_neg hk, hlook k]
        have hiff : (k ∈ p :: S) ↔ (k ∈ S) := by
          simp [List.mem_cons, hk]
        simp [hiff]
    have hnd₀ : (((p, g p) :: kvErase p st.1).map Prod.fst).Nodup := by
      rw [List.map_cons, List.nodup_cons]
      constructor
      · intro hmem
        obtain ⟨x, hx, hfst⟩ := List.mem_map.mp hmem
        have := List.of_mem_filter hx
        simp [hfst] at this
      · exact hpnd.sublist ((List.filter_sublist st.1).map Prod.fst)
    have hdrain := drainGo_spec g (p :: S)
      (((p, g p) :: kvErase p st.1).length + 1)
      ((p, g p) :: kvErase p st.1) st.2.1 st.2.2
      (by omega)
      (fun k hk => List.mem_cons_of_mem _ (hnext k hk))
      hlook₀ hnd₀ hout
    obtain ⟨hd1, hd2, hd3, hd4, hd5⟩ := hdrain
    have hS' : ∀ k ∈ p :: S, k < n := by
      intro k hk
      rcases List.mem_cons.mp hk with h1 | h1
      · exact h1 ▸ hpn
      · exact hS k h1
    have hps_lt : ∀ q ∈ ps, q < n :=
      fun q hq => harr q (List.mem_cons_of_mem _ hq)
    have hps_nin : ∀ q ∈ ps, q ∉ p :: S := by
      intro q hq hmem
      rcases List.mem_cons.mp hmem with h1 | h1
      · rw [List.nodup_cons] at hnd
        exact hnd.1 (h1 ▸ hq)
      · exact hdisj q (List.mem_cons_of_mem _ hq) h1
    have hps_nd : ps.Nodup := (List.nodup_cons.mp hnd).2
    have hmain := ih (p :: S) _ hS' hps_lt hps_nin hps_nd hd1 hd2 hd3 hd4 hd5
    obtain ⟨hm1, hm2, hm3, hm4, hm5⟩ := hmain
    have hiff : ∀ k : Nat, (k ∈ ps ∨ k ∈ p :: S) ↔ (k ∈ p :: ps ∨ k ∈ S) := by
      intro k
      simp only [List.mem_cons]
      tauto
    refine ⟨?_, ?_, ?_, hm4, hm5⟩
    · intro k hk
      exact (hiff k).mp (hm1 k hk)
    · intro hcon
      exact hm2 ((hiff _).mpr hcon)
    · intro k
      rw [hm3 k]
      exact if_congr (and_congr_left' (hiff k)) rfl rfl

theorem orderedWriter_perm (g : Nat → Except DecryptError (List Nat))
    (n : Nat) (arr : List Nat) (h : arr.Perm (List.range n)) :
    orderedWriter (arr.map (fun i => (i, g i))) =
      ((List.range n).map (fun i => writePageBytes (g i))).flatten := by
  have harr_lt : ∀ p ∈ arr, p < n :=
    fun p hp => List.mem_range.mp (h.mem_iff.mp hp)
  have harr_nd : arr.Nodup := h.nodup_iff.mpr (List.nodup_range n)
  obtain ⟨hlt, hnotin, hlook, hnd, hout⟩ :=
    writer_fold_spec g n arr [] ([], 0, []) (by simp) harr_lt (by simp)
      harr_nd (by intro k hk; simp at hk) (by simp) (by intro k; simp)
      (by simp) (by simp)
  rw [orderedWriter, hout]
  have hn : ((arr.map (fun i => (i, g i))).foldl
      (fun st arrival =>
        let pending := (arrival.1, arrival.2) :: kvErase arrival.1 st.1
        drainPending pending st.2.1 st.2.2) ([], 0, [])).2.1 = n := by
    set m := ((arr.map (fun i => (i, g i))).foldl
      (fun st arrival =>
        let pending := (arrival.1, arrival.2) :: kvErase arrival.1 st.1
        drainPending pending st.2.1 st.2.2) ([], 0, [])).2.1 with hm
    rcases Nat.lt_trichotomy m n with hc | hc | hc
    · exfalso
      apply hnotin
      left
      exact h.mem_iff.mpr (List.mem_range.mpr hc)
    · exact hc
    · exfalso
      rcases hlt n hc with h1 | h1
      · exact absurd (harr_lt n h1) (lt_irrefl n)
      · simp at h1
  rw [hn]

theorem processPageParallel_eq (C : CryptoPrims) (dk : DerivedKeys)
    (i : Nat) (d : List Nat) :
    processPageParallel C dk i d = .ok (processPageSeq C dk i d) := by
  rw [processPageParallel, processPageSeq]
  split
  · rfl
  · cases hdp : decryptPage C d dk.encKey dk.macKey i cfgV4 <;> rfl

theorem sequential_eq_prepare (C : CryptoPrims) (file key : List Nat) :
    decryptDatabaseSequential C file key =
      match prepareKeys C (file.take 4096) key with
      | .error e => .error e
      | .ok dk => .ok (sqliteHeader ++ ((pageChunks file).enum.map
          (fun p => processPageSeq C dk p.1 p.2)).flatten) := by
  rw [decryptDatabaseSequential, prepareKeys]
  by_cases henc : isDatabaseEncrypted (file.take 4096) = false
  · simp only [if_pos henc]
  · simp only [if_neg henc]
    by_cases hsz : (file.take 4096).length < SALT_SIZE
    · simp only [if_pos hsz]
    · simp only [if_neg hsz]
      cases hdk : deriveKeysV4 C key ((file.take 4096).take SALT_SIZE) with
      | error e => simp only [hdk]
      | ok dk =>
        simp only [hdk]
        cases hv : verifyPageHmac C (file.take 4096) dk.macKey 0 cfgV4 with
        | error e => simp only [hv]
        | ok b =>
          simp only [hv]
          cases b <;> rfl

theorem enumFrom_map_eq (f : Nat → List Nat → List Nat) :
    ∀ (l : List (List Nat)) (s : Nat),
      (l.enumFrom s).map (fun p => f p.1 p.2) =
        (List.range l.length).map (fun i => f (s + i) (l.getD i [])) := by
  intro l
  induction l with
  | nil => intro s; simp
  | cons a as ih =>
    intro s
    rw [List.enumFrom_cons, List.map_cons, List.length_cons,
      List.range_succ_eq_map, List.map_cons, List.map_map, ih (s + 1)]
    refine List.cons_eq_cons.mpr ⟨rfl, List.map_congr_left ?_⟩
    intro i hi
    show f (s + 1 + i) (as.getD i []) =
      f (s + (i + 1)) ((a :: as).getD (i + 1) [])
    rw [show s + 1 + i = s + (i + 1) by omega, List.getD_cons_succ]

theorem pageChunks_getD : ∀ (l : List Nat) (i : Nat),
    i < (pageChunks l).length → (pageChunks l).getD i [] = pageAt l i := by
  intro l i hi
  by_cases h : l = []
  · rw [pageChunks_eq, if_pos h] at hi
    simp at hi
  · rw [pageChunks_eq, if_neg h] at hi ⊢
    cases i with
    | zero => simp [pageAt]
    | succ j =>
      rw [List.getD_cons_succ,
        pageChunks_getD (l.drop 4096) j (by simpa using hi)]
      rw [pageAt, pageAt, List.drop_drop]
      rw [show (4096 : Nat) + j * 4096 = (j + 1) * 4096 by ring]
termination_by l => l.length
decreasing_by
  simp only [List.length_drop]
  exact Nat.sub_lt (List.length_pos.mpr h) (by decide)

/-- C6: for every arrival order of processed pages at the write task
that is a permutation of the page numbers, the parallel pipeline's
output byte stream equals the sequential pipeline's byte stream on the
same file and key (including the error cases, which are decided by the
same key-preparation checks). -/
theorem claim_C6_parallel_eq_sequential (C : CryptoPrims)
    (file key : List Nat) (arr : List Nat)
    (h : arr.Perm (List.range (pageChunks file).length)) :
    decryptDatabaseParallel C file key arr =
      decryptDatabaseSequential C file key := by
  rw [sequential_eq_prepare, decryptDatabaseParallel]
  cases hpk : prepareKeys C (file.take 4096) key with
  | error e => rfl
  | ok dk =>
    show Except.ok (sqliteHeader ++ orderedWriter (arr.map
        (fun i => (i, processPageParallel C dk i (pageAt file i))))) =
      Except.ok (sqliteHeader ++ ((pageChunks file).enum.map
        (fun p => processPageSeq C dk p.1 p.2)).flatten)
    have hwriter : orderedWriter (arr.map
        (fun i => (i, processPageParallel C dk i (pageAt file i)))) =
      ((List.range (pageChunks file).length).map (fun i =>
        writePageBytes (processPageParallel C dk i (pageAt file i)))).flatten :=
      orderedWriter_perm
        (fun i => processPageParallel C dk i (pageAt file i))
        (pageChunks file).length arr h
    rw [hwriter]
    have henum := enumFrom_map_eq (fun i c => processPageSeq C dk i c)
      (pageChunks file) 0
    rw [show (pageChunks file).enum = (pageChunks file).enumFrom 0 from rfl,
      henum]
    refine congrArg _ (congrArg _ (congrArg _ (List.map_congr_left ?_)))
    intro i hi
    rw [processPageParallel_eq, pageChunks_getD file i (List.mem_range.mp hi)]
    simp [writePageBytes]

/-- C6 witness: a 20-byte file (rejected identically by both paths)
with the one-page arrival order. -/
theorem claim_C6_witness :
    decryptDatabaseParallel trivPrims (List.replicate 20 1)
        (List.replicate 32 0) [0] =
      decryptDatabaseSequential trivPrims (List.replicate 20 1)
        (List.replicate 32 0) :=
  claim_C6_parallel_eq_sequential trivPrims (List.replicate 20 1)
    (List.replicate 32 0) [0] (by decide)


/-! ### Claim C9: batch versus single-file validation -/

theorem lookup_cons_ne {κ ν : Type} [BEq κ] [LawfulBEq κ]
    (ak : κ) (av : ν) (l : List (κ × ν)) (k : κ) (h : k ≠ ak) :
    ((ak, av) :: l).lookup k = l.lookup k := by
  rw [List.lookup_cons, beq_false_of_ne h]

theorem lookup_filter_ne {κ ν : Type} [DecidableEq κ] [BEq κ] [LawfulBEq κ]
    (k k' : κ) (h : k' ≠ k) :
    ∀ l : List (κ × ν),
      (l.filter (fun p => p.1 ≠ k)).lookup k' = l.lookup k'
  | [] => rfl
  | (ak, av) :: as => by
    by_cases ha : ak = k
    · have h1 : ((ak, av) :: as).filter (fun p => p.1 ≠ k) =
          as.filter (fun p => p.1 ≠ k) := by
        simp [List.filter_cons, ha]
      rw [h1, lookup_filter_ne k k' h as,
        lookup_cons_ne _ _ _ _ (fun he => h (he.trans ha))]
    · have h1 : ((ak, av) :: as).filter (fun p => p.1 ≠ k) =
          (ak, av) :: as.filter (fun p => p.1 ≠ k) := by
        simp [List.filter_cons, ha]
      rw [h1]
      by_cases hk : k' = ak
      · subst hk
        rw [List.lookup_cons_self, List.lookup_cons_self]
      · rw [lookup_cons_ne _ _ _ _ hk, lookup_cons_ne _ _ _ _ hk,
          lookup_filter_ne k k' h as]

theorem lookup_kvInsert {κ ν : Type} [DecidableEq κ] [BEq κ] [LawfulBEq κ]
    (k k' : κ) (v : ν) (l : List (κ × ν)) :
    (kvInsert k v l).lookup k' = if k' = k then some v else l.lookup k' := by
  rw [kvInsert]
  by_cases hk : k' = k
  · subst hk
    rw [List.lookup_cons_self, if_pos rfl]
  · rw [lookup_cons_ne _ _ _ _ hk, if_neg hk, lookup_filter_ne k k' hk l]

theorem foldl_kvInsert_lookup_notmem {κ ν α : Type} [DecidableEq κ]
    [BEq κ] [LawfulBEq κ] (K : α → κ) (V : α → ν) (k : κ) :
    ∀ (L : List α) (acc : List (κ × ν)), (∀ a ∈ L, K a ≠ k) →
      (L.foldl (fun acc x => kvInsert (K x) (V x) acc) acc).lookup k =
        acc.lookup k
  | [], _, _ => rfl
  | a :: as, acc, h => by
    rw [List.foldl_cons,
      foldl_kvInsert_lookup_notmem K V k as _
        (fun b hb => h b (.tail _ hb)),
      lookup_kvInsert, if_neg (fun he => h a (.head _) he.symm)]

theorem foldl_kvInsert_lookup {κ ν α : Type} [DecidableEq κ]
    [BEq κ] [LawfulBEq κ] (K : α → κ) (V : α → ν) :
    ∀ (L : List α) (acc : List (κ × ν)),
      (∀ a b, a ∈ L → b ∈ L → K a = K b → V a = V b) →
      ∀ a, a ∈ L →
        (L.foldl (fun acc x => kvInsert (K x) (V x) acc) acc).lookup (K a) =
          some (V a)
  | [], _, _, a, ha => absurd ha (List.not_mem_nil a)
  | x :: xs, acc, hcoh, a, ha => by
    rw [List.foldl_cons]
    by_cases hmem : ∃ b ∈ xs, K b = K a
    · obtain ⟨b, hb, hKb⟩ := hmem
      have hV : V b = V a := hcoh b a (.tail _ hb) ha hKb
      rw [← hKb, ← hV]
      exact foldl_kvInsert_lookup K V xs _
        (fun p q hp hq => hcoh p q (.tail _ hp) (.tail _ hq)) b hb
    · push_neg at hmem
      have hax : K a = K x ∧ V a = V x := by
        cases ha with
        | head => exact ⟨rfl, rfl⟩
        | tail _ hmem' => exact absurd rfl (hmem a hmem')
      rw [hax.1,
        foldl_kvInsert_lookup_notmem K V (K x) xs _
          (fun b hb he => hmem b hb (he.trans hax.1.symm)),
        lookup_kvInsert, if_pos rfl, hax.2]

theorem lookup_map_pair {κ ν₁ ν₂ : Type} [BEq κ] [LawfulBEq κ]
    (G : κ → ν₁ → ν₂) :
    ∀ (L : List (κ × ν₁)) (k : κ),
      (L.map (fun p => (p.1, G p.1 p.2))).lookup k = (L.lookup k).map (G k)
  | [], _ => rfl
  | (ak, av) :: as, k => by
    simp only [List.map_cons]
    by_cases hk : k = ak
    · subst hk
      rw [List.lookup_cons_self, List.lookup_cons_self]
      rfl
    · rw [lookup_cons_ne _ _ _ _ hk, lookup_cons_ne _ _ _ _ hk,
        lookup_map_pair G as k]

theorem readFileSalt_ok_inv (disk : Disk) (f : Nat) (salt : List Nat)
    (h : readFileSalt disk f = .ok salt) :
    ∃ content, disk f = some content ∧ SALT_SIZE ≤ content.length ∧
      content.take SALT_SIZE = salt := by
  rw [readFileSalt] at h
  split at h
  · exact Except.noConfusion h
  · next content hc =>
    split at h
    · exact Except.noConfusion h
    · next hlen =>
      simp only [Except.ok.injEq] at h
      exact ⟨content, hc, Nat.le_of_not_lt hlen, h⟩

theorem readSaltsAll_eq (disk : Disk) :
    ∀ (files : List Nat) (salts : List (Nat × List Nat)),
      readSaltsAll disk files = .ok salts →
      salts = files.map (fun f => (f, saltD disk f)) ∧
      ∀ f ∈ files, readFileSalt disk f = .ok (saltD disk f)
  | [], salts, h => by
    simp only [readSaltsAll, Except.ok.injEq] at h
    subst h
    exact ⟨rfl, fun f hf => absurd hf (List.not_mem_nil f)⟩
  | f :: fs, salts, h => by
    simp only [readSaltsAll] at h
    split at h
    · exact Except.noConfusion h
    · next s hs =>
      split at h
      · exact Except.noConfusion h
      · next rest hrest =>
        simp only [Except.ok.injEq] at h
        subst h
        obtain ⟨h1, h2⟩ := readSaltsAll_eq disk fs rest hrest
        have hsD : saltD disk f = s := by rw [saltD, hs]
        refine ⟨by rw [List.map_cons, ← h1, hsD], ?_⟩
        intro g hg
        rcases List.mem_cons.mp hg with hgf | hgs
        · rw [hgf, hs, hsD]
        · exact h2 g hgs

theorem deriveMissing_lookup (C : CryptoPrims) (key : List Nat) :
    ∀ (L : List ((List Nat × List Nat) × List Nat))
      (R : List ((List Nat × List Nat) × DerivedKeys)),
      deriveMissing C key L = .ok R →
      ∀ ck s, L.lookup ck = some s →
        ∃ dk, deriveKeysV4 C key s = .ok dk ∧ R.lookup ck = some dk
  | [], R, h, ck, s, hl => by simp at hl
  | (pk, pv) :: ps, R, h, ck, s, hl => by
    simp only [deriveMissing] at h
    split at h
    · exact Except.noConfusion h
    · next dk hdk =>
      split at h
      · exact Except.noConfusion h
      · next rest hrest =>
        simp only [Except.ok.injEq] at h
        subst h
        by_cases hck : ck = pk
        · subst hck
          rw [List.lookup_cons_self] at hl
          simp only [Option.some.injEq] at hl
          subst hl
          exact ⟨dk, hdk, List.lookup_cons_self⟩
        · rw [lookup_cons_ne _ _ _ _ hck] at hl
          obtain ⟨dk', h1, h2⟩ :=
            deriveMissing_lookup C key ps rest hrest ck s hl
          exact ⟨dk', h1, by rw [lookup_cons_ne _ _ _ _ hck, h2]⟩

theorem computeMissingKeysBatch_fresh (C : CryptoPrims) (key : List Nat)
    (uniqueKeys : List ((List Nat × List Nat) × List Nat))
    (derived : List ((List Nat × List Nat) × DerivedKeys)) (st₁ : VState)
    (h : computeMissingKeysBatch C freshVState key uniqueKeys =
      .ok (derived, st₁)) :
    deriveMissing C key uniqueKeys = .ok derived := by
  rw [computeMissingKeysBatch] at h
  have hfilter : uniqueKeys.filter
      (fun p => freshVState.cache.lookup p.1 = none) = uniqueKeys :=
    List.filter_eq_self.mpr (fun a _ => by simp [freshVState])
  have hmap : uniqueKeys.filterMap
      (fun p => (freshVState.cache.lookup p.1).map (fun dk => (p.1, dk))) =
      [] :=
    List.filterMap_eq_nil_iff.mpr (fun a _ => by simp [freshVState])
  rw [hfilter] at h
  split at h
  · exact Except.noConfusion h
  · next computed hcomp =>
    simp only [Except.ok.injEq, Prod.mk.injEq, hmap, List.nil_append] at h
    rw [hcomp, h.1]

theorem trivPrims_blake3 (x : List Nat) : trivPrims.blake3 x = x := rfl

theorem validateKeyCached_fresh (C : CryptoPrims) (disk : Disk) (f : Nat)
    (key salt : List Nat) (dk : DerivedKeys)
    (hsalt : readFileSalt disk f = .ok salt)
    (hdk : deriveKeysV4 C key salt = .ok dk) :
    (validateKeyCached C disk freshVState f key).1 =
      match verifyHmacWithKeys C disk f dk with
      | .ok true => .ok (some DVersion.V4)
      | .ok false => .ok none
      | .error _ => validateKeyAuto C disk f key := by
  rw [validateKeyCached]
  simp only [hsalt, freshVState, List.lookup_nil, hdk]
  cases hv : verifyHmacWithKeys C disk f dk with
  | error e => simp only [hv]
  | ok b => cases b <;> simp only [hv]

theorem validateKeyAuto_verify_error (C : CryptoPrims) (disk : Disk)
    (f : Nat) (key salt : List Nat) (dk : DerivedKeys) (e : DecryptError)
    (hsalt : readFileSalt disk f = .ok salt)
    (hdk : deriveKeysV4 C key salt = .ok dk)
    (hv : verifyHmacWithKeys C disk f dk = .error e) :
    validateKeyAuto C disk f key = .ok none := by
  obtain ⟨content, hc, hlen, htake⟩ := readFileSalt_ok_inv disk f salt hsalt
  rw [validateKeyAuto, validateKeyV4]
  simp only [hc]
  by_cases henc : isDatabaseEncrypted (content.take 4096) = false
  · rw [if_pos henc]
  · rw [if_neg henc, if_neg ?hlen2]
    case hlen2 =>
      simp only [List.length_take, SALT_SIZE] at hlen ⊢
      omega
    rw [show (content.take 4096).take SALT_SIZE = salt from by
      rw [List.take_take, show min SALT_SIZE 4096 = SALT_SIZE from by
        simp [SALT_SIZE], htake]]
    simp only [hdk]
    have hv' : verifyPageHmac C (content.take 4096) dk.macKey 0 cfgV4 =
        .error e := by
      rw [verifyHmacWithKeys] at hv
      simp only [hc] at hv
      exact hv
    simp only [hv']
    rfl

theorem pageGood_salt : pageGood.take SALT_SIZE = List.replicate 16 2 := by
  show pageGood.take 16 = List.replicate 16 2
  rw [pageGood]
  exact take16_page (by simp only [List.length_replicate])

theorem deriveKeysV4_triv :
    deriveKeysV4 trivPrims (List.replicate 32 0) (List.replicate 16 2) =
      .ok { encKey := List.replicate 32 0,
            macKey := List.replicate 32 0 } := by
  simp [deriveKeysV4, KEY_SIZE, SALT_SIZE, trivPrims]

theorem readFileSalt_disk9_0 :
    readFileSalt disk9 0 = .ok (List.replicate 16 2) := by
  have h : readFileSalt disk9 0 =
      if pageGood.length < SALT_SIZE then .error .ioError
      else .ok (pageGood.take SALT_SIZE) := rfl
  rw [h, if_neg (by rw [pageGood_length]; norm_num [SALT_SIZE]),
    pageGood_salt]

theorem verifyHmacWithKeys_disk9_0 :
    verifyHmacWithKeys trivPrims disk9 0
      { encKey := List.replicate 32 0, macKey := List.replicate 32 0 } =
      .ok true := by
  have h : verifyHmacWithKeys trivPrims disk9 0
      { encKey := List.replicate 32 0, macKey := List.replicate 32 0 } =
      verifyPageHmac trivPrims (pageGood.take 4096) (List.replicate 32 0) 0
        cfgV4 := rfl
  rw [h, pageGood_take, pageGood_verify]

theorem validateKeyCached_disk9_0 :
    validateKeyCached trivPrims disk9 freshVState 0 (List.replicate 32 0) =
      (.ok (some DVersion.V4), st9) := by
  rw [validateKeyCached]
  simp only [readFileSalt_disk9_0, mkCacheKey, trivPrims_blake3, freshVState,
    List.lookup_nil, deriveKeysV4_triv, verifyHmacWithKeys_disk9_0]
  rfl

theorem validateKeyCached_disk9_1 :
    (validateKeyCached trivPrims disk9 st9 1 (List.replicate 32 0)).1 =
      .ok (some DVersion.V4) := by
  decide

theorem validateFilesBatch_disk9 :
    validateFilesBatch trivPrims disk9 st9 [1] (List.replicate 32 0) =
      .ok ([(1, (none : Option DVersion))], st9) := by
  decide

/-- C9 counterexample: on a fresh validator holding two files that share
a salt (file 0 a valid full page, file 1 a 16-byte stub that cannot
verify), validating file 0 and then file 1 with the single-file
validator reports `some V4` for file 1 (a version-cache hit on the
shared `(blake3 key, blake3 salt)` cache key), while
`validate_files_batch` run from the very same state reports `none` for
file 1: the batch entry differs from the single-file result. -/
theorem claim_C9_counterexample :
    validateKeyCached trivPrims disk9 freshVState 0 (List.replicate 32 0) =
      (.ok (some DVersion.V4), st9) ∧
    (validateKeyCached trivPrims disk9 st9 1 (List.replicate 32 0)).1 =
      .ok (some DVersion.V4) ∧
    validateFilesBatch trivPrims disk9 st9 [1] (List.replicate 32 0) =
      .ok ([(1, (none : Option DVersion))], st9) ∧
    some DVersion.V4 ≠ (none : Option DVersion) :=
  ⟨validateKeyCached_disk9_0, validateKeyCached_disk9_1,
    validateFilesBatch_disk9, by decide⟩

/-- C9 (amended): when both start from a fresh validator (empty derived-
key and version caches) and the hash is injective, batch validation
agrees with single-file validation: whenever `validate_files_batch`
succeeds, its results list holds, for every file `f` of the input list,
exactly the verdict `v` that `validate_key_cached` run on `f` from a
fresh validator returns. -/
theorem claim_C9_batch_eq_single (C : CryptoPrims)
    (hInj : Function.Injective C.blake3) (disk : Disk)
    (files : List Nat) (key : List Nat)
    (results : List (Nat × Option DVersion)) (st' : VState)
    (hb : validateFilesBatch C disk freshVState files key =
      .ok (results, st'))
    (f : Nat) (hf : f ∈ files) :
    ∃ v, (validateKeyCached C disk freshVState f key).1 = .ok v ∧
      results.lookup f = some v := by
  rw [validateFilesBatch] at hb
  split at hb
  · exact Except.noConfusion hb
  next salts hsalts =>
  simp only [] at hb
  split at hb
  · exact Except.noConfusion hb
  next derivedKeys st₁ hcomp =>
  simp only [Except.ok.injEq, Prod.mk.injEq] at hb
  obtain ⟨hres, hst⟩ := hb
  obtain ⟨hsalts_eq, hsalt_ok⟩ := readSaltsAll_eq disk files salts hsalts
  have hfsalt : readFileSalt disk f = .ok (saltD disk f) := hsalt_ok f hf
  have hder := computeMissingKeysBatch_fresh C key _ derivedKeys st₁ hcomp
  have hmem : (f, saltD disk f) ∈ salts := by
    rw [hsalts_eq]
    exact List.mem_map.mpr ⟨f, hf, rfl⟩
  have hulk : (salts.foldl
      (fun acc p => kvInsert (mkCacheKey C key p.2) p.2 acc) []).lookup
        (mkCacheKey C key (saltD disk f)) = some (saltD disk f) := by
    have h := foldl_kvInsert_lookup
      (fun p : Nat × List Nat => mkCacheKey C key p.2)
      (fun p : Nat × List Nat => p.2) salts []
      (fun a b _ _ hab => by
        simp only [mkCacheKey, Prod.mk.injEq] at hab
        exact hInj hab.2)
      (f, saltD disk f) hmem
    exact h
  obtain ⟨dkf, hdkf, hdlk⟩ := deriveMissing_lookup C key _ derivedKeys hder
    (mkCacheKey C key (saltD disk f)) (saltD disk f) hulk
  have hflk : (salts.foldl
      (fun acc p => kvInsert p.1 (mkCacheKey C key p.2) acc) []).lookup f =
      some (mkCacheKey C key (saltD disk f)) := by
    have h := foldl_kvInsert_lookup (fun p : Nat × List Nat => p.1)
      (fun p : Nat × List Nat => mkCacheKey C key p.2) salts []
      (fun a b ha hb hab => by
        rw [hsalts_eq] at ha hb
        obtain ⟨fa, _, rfl⟩ := List.mem_map.mp ha
        obtain ⟨fb, _, rfl⟩ := List.mem_map.mp hb
        dsimp only at hab
        subst hab
        rfl)
      (f, saltD disk f) hmem
    exact h
  have hfn : (fun p : Nat × (List Nat × List Nat) =>
      match derivedKeys.lookup p.2 with
      | some dk =>
        match verifyHmacWithKeys C disk p.1 dk with
        | .ok true => (p.1, some DVersion.V4)
        | .ok false => (p.1, (none : Option DVersion))
        | .error _ => (p.1, (none : Option DVersion))
      | none => (p.1, (none : Option DVersion))) =
      fun p => (p.1, batchVerdict C disk derivedKeys p.1 p.2) := by
    funext p
    cases h1 : derivedKeys.lookup p.2 with
    | none => simp only [batchVerdict, h1]
    | some dk =>
      cases h2 : verifyHmacWithKeys C disk p.1 dk with
      | error e => simp only [batchVerdict, h1, h2]
      | ok b => cases b <;> simp only [batchVerdict, h1, h2]
  have hres' : results.lookup f =
      some (batchVerdict C disk derivedKeys f
        (mkCacheKey C key (saltD disk f))) := by
    rw [← hres, hfn, lookup_map_pair (batchVerdict C disk derivedKeys) _ f,
      hflk]
    rfl
  refine ⟨batchVerdict C disk derivedKeys f (mkCacheKey C key (saltD disk f)),
    ?_, hres'⟩
  rw [validateKeyCached_fresh C disk f key (saltD disk f) dkf hfsalt hdkf]
  cases hv : verifyHmacWithKeys C disk f dkf with
  | ok b => cases b <;> simp only [batchVerdict, hdlk, hv]
  | error e =>
    simp only [batchVerdict, hdlk, hv]
    exact validateKeyAuto_verify_error C disk f key (saltD disk f) dkf e
      hfsalt hdkf hv

/-- C9 witness: the amended agreement applied to a one-file disk whose
single 16-byte file fails verification on both paths. -/
theorem claim_C9_witness :
    ∃ v, (validateKeyCached trivPrims disk16 freshVState 0
        (List.replicate 32 0)).1 = .ok v ∧
      ([((0 : Nat), (none : Option DVersion))]).lookup 0 = some v :=
  claim_C9_batch_eq_single trivPrims (fun a b h => h) disk16 [0]
    (List.replicate 32 0) [(0, none)]
    { cache := [((List.replicate 32 0, List.replicate 16 5),
        { encKey := List.replicate 32 0, macKey := List.replicate 32 0 })],
      versionCache := [] }
    (by decide) 0 (by decide)

end MwxDump
